import Mathlib

/-!
Verification of the professor-map consolidation core
(`src/builddb/parse_SQL.py`, `src/builddb/build_courses.py`).

The Python source is shallowly embedded: Python strings are Lean `String`s
(operated on via their `List Char` data), Python floats appearing in
similarity arithmetic are modelled as exact rationals `ℚ`, dictionaries are
association lists with first-occurrence lookup, and the SQLite tables are
in-memory lists of row structures with `INSERT OR IGNORE` modelled by the
corresponding uniqueness check.  The single call into the Python standard
library `difflib.SequenceMatcher(None, a, b).ratio()` (which is not part of
this repository) is modelled as an abstract parameter `ratioFn`; where a
property needs its documented range `[0, 1]`, that range is an explicit
hypothesis.
-/

namespace ProfessorMap

/-! ## Python string primitives

`pyIsSpace` is the ASCII part of Python's `\s` / `str.strip` character
class; the repository's inputs are ASCII names. -/

def pyIsSpace (c : Char) : Bool :=
  c = ' ' ∨ c = '\t' ∨ c = '\n' ∨ c = '\r' ∨ c = '\x0b' ∨ c = '\x0c'

/-- Python `str.strip()` on the character list of a string. -/
def pyStripL (l : List Char) : List Char :=
  ((l.dropWhile pyIsSpace).reverse.dropWhile pyIsSpace).reverse

/-- Python `str.strip()`. -/
def pyStripS (s : String) : String :=
  ⟨pyStripL s.data⟩

/-- Python `str.lower()` (ASCII case folding). -/
def pyLower (s : String) : String :=
  ⟨s.data.map Char.toLower⟩

/-- Helper for `re.sub(r'\s+', ' ', ·)`: the flag records whether the
previous character was whitespace (so a run collapses to one space). -/
def collapseAux : Bool → List Char → List Char
  | _, [] => []
  | prevSpace, c :: rest =>
    if pyIsSpace c then
      if prevSpace then collapseAux true rest
      else ' ' :: collapseAux true rest
    else c :: collapseAux false rest

/-- Python `re.sub(r'\s+', ' ', ·)`: every maximal whitespace run becomes one space. -/
def collapseSpaces (l : List Char) : List Char :=
  collapseAux false l

/-- Python `str.split()` (split on whitespace runs, dropping empty pieces);
`acc` holds the current token reversed. -/
def splitWSAux (acc : List Char) : List Char → List (List Char)
  | [] => if acc = [] then [] else [acc.reverse]
  | c :: rest =>
    if pyIsSpace c then
      if acc = [] then splitWSAux [] rest
      else acc.reverse :: splitWSAux [] rest
    else splitWSAux (c :: acc) rest

/-- Python `str.split()` on a `String`. -/
def pySplit (s : String) : List String :=
  (splitWSAux [] s.data).map fun l => ⟨l⟩

/-- Test `startsWithL pat l`: `pat` is an initial segment of `l`. -/
def startsWithL : List Char → List Char → Bool
  | [], _ => true
  | _ :: _, [] => false
  | p :: ps, c :: cs => p = c && startsWithL ps cs

/-- The suffix alternatives of the regex
`r'\s+(jr|sr|ii|iii|iv|v|esq|phd|md)\.?$'` in `normalize_name`, and of the
anchored suffix test in `parse_name`. -/
def nameSuffixes : List (List Char) :=
  ["jr".data, "sr".data, "ii".data, "iii".data, "iv".data, "v".data,
   "esq".data, "phd".data, "md".data]

/-- On the reversed string (with a trailing period already removed when
present), find a suffix alternative followed (in the original string) by at
least one whitespace character, and drop it together with that whitespace
run.  Returns `none` when the regex does not match. -/
def trySuffixRev (r : List Char) : Option (List Char) :=
  (nameSuffixes.filterMap fun sfx =>
    let sr := sfx.reverse
    if startsWithL sr r then
      match r.drop sr.length with
      | [] => none
      | c :: rest => if pyIsSpace c then some ((c :: rest).dropWhile pyIsSpace) else none
    else none).head?

/-- Python `re.sub(r'\s+(jr|sr|ii|iii|iv|v|esq|phd|md)\.?$', '', ·)`.  The `$`
anchor means at most one match; we work on the reversed string, first
consuming the optional trailing `.`. -/
def stripNameSuffix (l : List Char) : List Char :=
  match l.reverse with
  | '.' :: rest =>
    match trySuffixRev rest with
    | some r2 => r2.reverse
    | none => l
  | r =>
    match trySuffixRev r with
    | some r2 => r2.reverse
    | none => l

/-! ## `normalize_name` (parse_SQL.py lines 99–111) -/

/-- The function `normalize_name`: lowercase and strip, collapse whitespace runs, remove
a trailing generational/degree suffix, then delete all periods.  The empty
string is returned unchanged (the `if not name` guard). -/
def normalize_name (name : String) : String :=
  if name = "" then ""
  else
    let n1 := pyStripL (name.data.map Char.toLower)
    let n2 := collapseSpaces n1
    let n3 := stripNameSuffix n2
    ⟨n3.filter (· ≠ '.')⟩

/-! ## `NICKNAME_MAP` (parse_SQL.py lines 21–96)

The Python source writes a `dict` literal with several duplicated keys
(`steve`, `al`, `frank`, `jeff`, `nate`, `phil` each occur twice or three
times).  Python keeps the first occurrence's position and the last
occurrence's value, so the resulting dictionary is the association list
below (insertion order, duplicate keys resolved to their final value). -/

def NICKNAME_MAP : List (String × String) :=
  [("mike", "michael"), ("mikey", "michael"), ("mick", "michael"),
   ("bob", "robert"), ("bobby", "robert"), ("rob", "robert"), ("robby", "robert"),
   ("dick", "richard"), ("rick", "richard"), ("rich", "richard"),
   ("bill", "william"), ("will", "william"), ("billy", "william"),
   ("jim", "james"), ("jimmy", "james"),
   ("tom", "thomas"), ("tommy", "thomas"),
   ("dave", "david"), ("davey", "david"),
   ("dan", "daniel"), ("danny", "daniel"),
   ("chris", "christopher"),
   ("chuck", "charles"), ("charlie", "charles"),
   ("ed", "edward"), ("eddie", "edward"), ("ted", "edward"), ("teddy", "edward"),
   ("joe", "joseph"), ("joey", "joseph"),
   ("johnny", "john"), ("jon", "john"), ("jack", "john"),
   ("pat", "patrick"), ("patty", "patrick"),
   ("pete", "peter"),
   ("steve", "stephen"), ("steven", "stephen"),
   ("al", "albert"),
   ("alex", "alexander"),
   ("andy", "andrew"), ("drew", "andrew"),
   ("ben", "benjamin"), ("bennie", "benjamin"),
   ("frank", "francis"),
   ("fred", "frederick"),
   ("greg", "gregory"),
   ("jeff", "jeffery"),
   ("ken", "kenneth"), ("kenny", "kenneth"),
   ("larry", "lawrence"),
   ("matt", "matthew"),
   ("nate", "nathaniel"),
   ("nick", "nicholas"),
   ("paul", "paul"),
   ("phil", "phillip"),
   ("ray", "raymond"),
   ("ron", "ronald"), ("ronny", "ronald"),
   ("sam", "samuel"),
   ("scott", "scott"),
   ("sean", "sean"), ("shawn", "sean"),
   ("tim", "timothy"), ("timmy", "timothy"),
   ("tony", "anthony"),
   ("vince", "vincent")]

/-- Keep the first occurrence of each element (Python `list(set(...))`
deduplicates; the set's iteration order is unspecified in Python, fixed
here — the Matcher only ever uses membership in the returned list). -/
def dedupFirstAux (seen : List String) : List String → List String
  | [] => []
  | a :: as =>
    if seen.contains a then dedupFirstAux seen as
    else a :: dedupFirstAux (seen ++ [a]) as

/-- The function `expand_nickname` (parse_SQL.py lines 114–128): the lowercased stripped
name, plus its full form when it is a known nickname, plus every nickname
whose full form it is. -/
def expand_nickname (name : String) : List String :=
  let nl := pyStripS (pyLower name)
  let v1 := [nl]
  let v2 :=
    match List.lookup nl NICKNAME_MAP with
    | some full => v1 ++ [full]
    | none => v1
  let v3 := v2 ++ (NICKNAME_MAP.filter (fun kv => kv.2 = nl)).map (·.1)
  dedupFirstAux [] v3

/-! ## `parse_name` (parse_SQL.py lines 131–160) -/

structure ParsedName where
  first : String
  last : String
  middle : String
  suffix : String
deriving DecidableEq, Repr

/-- Suffix words recognized by `parse_name`'s anchored
`r'^(jr|sr|ii|iii|iv|v|esq|phd|md)$'` test. -/
def suffixWords : List String :=
  ["jr", "sr", "ii", "iii", "iv", "v", "esq", "phd", "md"]

/-- Python `' '.join(l)`. -/
def joinSpaces (l : List String) : String :=
  String.intercalate " " l

/-- The function `parse_name`: split the normalized name into whitespace tokens and
assign first/middle/last/suffix exactly as the Python branches do. -/
def parse_name (full_name : String) : ParsedName :=
  if full_name = "" ∨ pyStripS full_name = "" then ⟨"", "", "", ""⟩
  else
    let name := normalize_name full_name
    let parts := pySplit name
    match parts with
    | [] => ⟨"", "", "", ""⟩
    | [p0] => ⟨p0, "", "", ""⟩
    | [p0, p1] => ⟨p0, p1, "", ""⟩
    | p0 :: ps =>
      -- three or more tokens
      let last := ps.getLastD ""
      let middle := joinSpaces ps.dropLast
      if suffixWords.contains last then
        let last2 := ps.dropLast.getLastD ""
        let middle2 :=
          if parts.length > 3 then joinSpaces ps.dropLast.dropLast else ""
        ⟨p0, last2, middle2, last⟩
      else ⟨p0, last, middle, ""⟩

/-! ## Python `max` on rationals

Defined through `Rat.blt` (`max(a, b)` in Python returns `b` exactly when
`b > a`); `Rat.blt` is the kernel-reducible comparison underlying `<` on
`ℚ`, so concrete runs evaluate. -/

def pyMax (a b : ℚ) : ℚ := if Rat.blt a b then b else a

/-! ## `name_similarity` (parse_SQL.py lines 163–187)

`ratioFn` stands for `difflib.SequenceMatcher(None, ·, ·).ratio()`. -/

def name_similarity (ratioFn : String → String → ℚ) (name1 name2 : String) : ℚ :=
  if name1 = "" ∨ name2 = "" then 0
  else
    let norm1 := normalize_name name1
    let norm2 := normalize_name name2
    if norm1 = norm2 then 1
    else
      let sim := ratioFn norm1 norm2
      let parts1 := pySplit norm1
      let parts2 := pySplit norm2
      if parts1.any (fun p => parts2.contains p) then pyMax sim (mkRat 7 10)
      else sim

/-! ## `match_professor_name` (parse_SQL.py lines 190–243) -/

/-- One candidate of the professor catalog `byu_professors.json` as consumed
by the matching pipeline: `firstName` and `lastName` via
`prof.get(·, '')` (the empty string standing for an absent field), and the
external RateMyProfessors id via `prof.get('id')`. -/
structure Prof where
  firstName : String
  lastName : String
  rmpId : Option String
deriving DecidableEq, Repr

/-- The immediate exact rule: the candidate's normalized first and last
names equal the instructor's parsed first and last names. -/
def exactRuleB (instFirst instLast : String) (p : Prof) : Bool :=
  normalize_name p.firstName = instFirst ∧ normalize_name p.lastName = instLast

/-- The immediate nickname rule: some nickname expansion of the
instructor's first name equals some expansion of the candidate's
(normalized) first name, and the normalized last names coincide. -/
def nickRuleB (instFirst instLast : String) (p : Prof) : Bool :=
  (expand_nickname instFirst).any
      (fun v => (expand_nickname (normalize_name p.firstName)).contains v)
    ∧ normalize_name p.lastName = instLast

/-- The fuzzy score of one candidate: `0.4·firstSim + 0.6·lastSim`, raised
to at least `0.85` when both component similarities exceed `0.7`
(parse_SQL.py lines 228–237). -/
def combinedScore (ratioFn : String → String → ℚ)
    (instFirst instLast : String) (p : Prof) : ℚ :=
  let firstSim := name_similarity ratioFn instFirst (normalize_name p.firstName)
  let lastSim := name_similarity ratioFn instLast (normalize_name p.lastName)
  let combined := firstSim * mkRat 2 5 + lastSim * mkRat 3 5
  if firstSim > mkRat 7 10 ∧ lastSim > mkRat 7 10 then pyMax combined (mkRat 17 20)
  else combined

/-- The candidate loop of `match_professor_name`, over the enumerated
candidate list, carrying the best fuzzy candidate and its score.
Candidates whose normalized first or last name is empty are skipped; the
exact and nickname rules return immediately; a fuzzy candidate replaces the
best one when its score strictly improves it and reaches `0.75`. -/
def matchLoop (ratioFn : String → String → ℚ) (instFirst instLast : String) :
    List (Nat × Prof) → Option Nat → ℚ → Option Nat
  | [], best, _ => best
  | (idx, prof) :: rest, best, bestSim =>
    if normalize_name prof.firstName = "" ∨ normalize_name prof.lastName = "" then
      matchLoop ratioFn instFirst instLast rest best bestSim
    else if exactRuleB instFirst instLast prof then some idx
    else if nickRuleB instFirst instLast prof then some idx
    else
      let combined := combinedScore ratioFn instFirst instLast prof
      if Rat.blt bestSim combined ∧ ¬ Rat.blt combined (mkRat 3 4) then
        matchLoop ratioFn instFirst instLast rest (some idx) combined
      else
        matchLoop ratioFn instFirst instLast rest best bestSim

/-- Enumerate a list with indices starting at `n` (Python `enumerate`). -/
def enumIdx (n : Nat) : List Prof → List (Nat × Prof)
  | [] => []
  | p :: ps => (n, p) :: enumIdx (n + 1) ps

/-- The Matcher `match_professor_name`: parse the instructor string; reject it when it
is blank or lacks a first or last token; otherwise scan the candidates in
order. -/
def match_professor_name (ratioFn : String → String → ℚ)
    (instructor_name : String) (professors : List Prof) : Option Nat :=
  if pyStripS instructor_name = "" then none
  else
    let p := parse_name instructor_name
    if p.first = "" ∨ p.last = "" then none
    else matchLoop ratioFn p.first p.last (enumIdx 0 professors) none 0

/-- A concrete stand-in ratio used to instantiate counterexamples and
witnesses at closed inputs (the code paths exercised there never consult
the character-level ratio). -/
def ratioZero : String → String → ℚ := fun _ _ => 0

/-! ## `escape_sql_string` (parse_SQL.py lines 787–810)

Python scalars reaching the exporter.  A finite float's decimal rendering
(`str(value)`) is abstracted as `floatRepr`; the special values NaN and the
two infinities, which the claimed behaviour is about, are explicit. -/

inductive PyFloat where
  | nan
  | pinf
  | ninf
  | finite (q : ℚ)
deriving DecidableEq, Repr

inductive SqlVal where
  | vnull
  | vbool (b : Bool)
  | vint (n : Int)
  | vfloat (f : PyFloat)
  | vstr (s : String)
deriving DecidableEq, Repr

/-- Python `str.replace` specialised to a single-character pattern (the two
uses in `escape_sql_string` replace `'` and `\`): scan left to right, never
rescanning replacement text. -/
def pyReplaceChar (c : Char) (rep : List Char) : List Char → List Char
  | [] => []
  | a :: as =>
    if a = c then rep ++ pyReplaceChar c rep as
    else a :: pyReplaceChar c rep as

/-- The function `escape_sql_string`: null keyword for `None`, dialect boolean literals,
NaN to null, infinities to quoted sentinels, numbers via their repr, and
strings with quotes doubled then backslashes doubled, wrapped in single
quotes. -/
def escape_sql_string (floatRepr : ℚ → String) : SqlVal → String
  | .vnull => "NULL"
  | .vbool b => if b then "TRUE" else "FALSE"
  | .vint n => toString n
  | .vfloat .nan => "NULL"
  | .vfloat .pinf => "'Infinity'"
  | .vfloat .ninf => "'-Infinity'"
  | .vfloat (.finite q) => floatRepr q
  | .vstr s =>
    let l1 := pyReplaceChar '\'' ['\'', '\''] s.data
    let l2 := pyReplaceChar '\\' ['\\', '\\'] l1
    ⟨'\'' :: (l2 ++ ['\''])⟩

/-- Character-wise specification of the string escape: each single quote
becomes two single quotes, each backslash two backslashes, all other
characters pass through. -/
def sqlCharEsc (c : Char) : List Char :=
  if c = '\'' then ['\'', '\'']
  else if c = '\\' then ['\\', '\\']
  else [c]

/-! ## `normalize_schema` (build_courses.py lines 171–223)

The JSON values the pass walks.  Python raises on structurally ill-typed
data (a non-dict course, a truthy non-list `sections` value, a non-dict
section); those runs are modelled as `none`. -/

inductive JVal where
  | null
  | jbool (b : Bool)
  | jint (n : Int)
  | jstr (s : String)
  | arr (l : List JVal)
  | obj (l : List (String × JVal))

/-- Python truthiness of a JSON value. -/
def jtruthy : JVal → Bool
  | .null => false
  | .jbool b => b
  | .jint n => n != 0
  | .jstr s => s != ""
  | .arr l => !l.isEmpty
  | .obj l => !l.isEmpty

def course_fields : List String :=
  ["catalog_number", "catalog_suffix", "curriculum_id", "dept_name",
   "full_title", "sections", "title", "title_code", "year_term"]

def section_fields : List String :=
  ["credit_hours", "credit_type", "fixed_or_variable", "honors",
   "instructor_id", "instructor_name", "minimum_credit_hours", "mode",
   "mode_desc", "section_number", "section_type", "times"]

def time_fields : List String :=
  ["building", "days", "end_time", "room", "start_time"]

/-- The inner `for field in fields: if field not in record: record[field] =
None; count += 1` loop: append an explicit null for each declared field not
present, counting insertions. -/
def addMissing : List String → List (String × JVal) → List (String × JVal) × Nat
  | [], r => (r, 0)
  | f :: fs, r =>
    if (r.map Prod.fst).contains f then addMissing fs r
    else
      let next := addMissing fs (r ++ [(f, JVal.null)])
      (next.1, next.2 + 1)

/-- Replace the value stored at the first occurrence of `k` (the functional
rendering of Python's in-place `record[k] = v` for a present key). -/
def setKey : List (String × JVal) → String → JVal → List (String × JVal)
  | [], _, _ => []
  | (k0, v0) :: rest, k, v =>
    if k0 = k then (k0, v) :: rest
    else (k0, v0) :: setKey rest k v

/-- Time-block normalization: only `isinstance(time_block, dict)` records
are touched. -/
def normalizeTimeBlock (tb : JVal) : JVal × Nat :=
  match tb with
  | .obj l =>
    let r := addMissing time_fields l
    (.obj r.1, r.2)
  | other => (other, 0)

/-- An `Option`-valued `List.map` for fallible element transforms. -/
def mapMOpt (f : α → Option β) : List α → Option (List β)
  | [] => some []
  | a :: as =>
    match f a with
    | none => none
    | some b =>
      match mapMOpt f as with
      | none => none
      | some bs => some (b :: bs)

/-- Section normalization: insert nulls for missing declared section
fields, then, when the (now present) `times` value is truthy and a list,
normalize each dict time block in place. -/
def normalizeSection (s : JVal) : Option (JVal × Nat) :=
  match s with
  | .obj l =>
    let r := addMissing section_fields l
    let times := (List.lookup "times" r.1).getD .null
    if jtruthy times then
      match times with
      | .arr ts =>
        let results := ts.map normalizeTimeBlock
        some (.obj (setKey r.1 "times" (.arr (results.map Prod.fst))),
              r.2 + (results.map Prod.snd).sum)
      | _ => some (.obj r.1, r.2)
    else some (.obj r.1, r.2)
  | _ => none

/-- Course normalization: insert nulls for missing declared course fields,
then, when the (now present) `sections` value is truthy, walk it as a list
of section dicts. -/
def normalizeCourse (c : JVal) : Option (JVal × Nat) :=
  match c with
  | .obj l =>
    let r := addMissing course_fields l
    let secs := (List.lookup "sections" r.1).getD .null
    if jtruthy secs then
      match secs with
      | .arr ss =>
        match mapMOpt normalizeSection ss with
        | none => none
        | some results =>
          some (.obj (setKey r.1 "sections" (.arr (results.map Prod.fst))),
                r.2 + (results.map Prod.snd).sum)
      | _ => none
    else some (.obj r.1, r.2)
  | _ => none

/-- The pass `normalize_schema`: walk every course record of the courses map,
returning the normalized map together with the total number of null
insertions that the pass reports. -/
def normalize_schema :
    List (String × JVal) → Option (List (String × JVal) × Nat)
  | [] => some ([], 0)
  | (k, v) :: rest =>
    match normalizeCourse v with
    | none => none
    | some (v2, n1) =>
      match normalize_schema rest with
      | none => none
      | some (rest2, n2) => some ((k, v2) :: rest2, n1 + n2)

/-- A record carries every declared field. -/
def hasFields (fields : List String) (r : List (String × JVal)) : Bool :=
  fields.all fun f => (r.map Prod.fst).contains f

/-- Declared-field completeness of one time block (`dict` blocks only, as
in the pass itself). -/
def timeBlockComplete (tb : JVal) : Bool :=
  match tb with
  | .obj l => hasFields time_fields l
  | _ => true

/-- Declared-field completeness of one section record, including its dict
time blocks. -/
def sectionComplete (s : JVal) : Bool :=
  match s with
  | .obj l =>
    hasFields section_fields l &&
      (match (List.lookup "times" l).getD .null with
       | .arr ts => ts.all timeBlockComplete
       | _ => true)
  | _ => false

/-- Declared-field completeness of one course record, including its
sections. -/
def courseComplete (c : JVal) : Bool :=
  match c with
  | .obj l =>
    hasFields course_fields l &&
      (match (List.lookup "sections" l).getD .null with
       | .arr ss => ss.all sectionComplete
       | _ => true)
  | _ => false

/-! ## PostgreSQL export ordering (parse_SQL.py lines 813–958)

Statement-level model of `export_to_postgresql`: the fixed dependency
order, the reordering of the tables found in `sqlite_master`, and the
drop / create / index / insert sections of the combined script.  Insert
batches for one table are collapsed to a single statement (the claim under
check concerns the order of tables, not the 500-row batching). -/

def table_order : List String :=
  ["professors", "courses", "sections", "section_times", "ratings",
   "rating_tags", "professor_name_variants"]

/-- Reorder the discovered tables: those in the fixed list first (in fixed
order), then every remaining table appended in discovery order. -/
def orderedTables (all_tables : List String) : List String :=
  all_tables.foldl
    (fun acc t => if acc.contains t then acc else acc ++ [t])
    (table_order.filter fun t => all_tables.contains t)

inductive SqlStmt where
  | dropT (table : String)
  | createT (table : String)
  | indexT (idxName : String)
  | insertT (table : String)
deriving DecidableEq, Repr

/-- The fixed index list written in step 3 of the export. -/
def index_names : List String :=
  ["idx_professors_rmp_id", "idx_professors_name", "idx_sections_course",
   "idx_sections_professor", "idx_section_times_section",
   "idx_ratings_professor", "idx_rating_tags_rating"]

/-- The combined Supabase script as a statement list: drops over the
reversed order, creates in order, the fixed indexes, then one insert per
table that has rows. -/
def exportStmts (all_tables : List String) (rowCount : String → Nat) :
    List SqlStmt :=
  ((orderedTables all_tables).reverse.map .dropT)
    ++ ((orderedTables all_tables).map .createT)
    ++ (index_names.map .indexT)
    ++ (((orderedTables all_tables).filter fun t => rowCount t ≠ 0).map .insertT)

def dropsOf (l : List SqlStmt) : List String :=
  l.filterMap fun s =>
    match s with
    | .dropT t => some t
    | _ => none

def createsOf (l : List SqlStmt) : List String :=
  l.filterMap fun s =>
    match s with
    | .createT t => some t
    | _ => none

def insertsOf (l : List SqlStmt) : List String :=
  l.filterMap fun s =>
    match s with
    | .insertT t => some t
    | _ => none

/-! ## `insert_ratings` (parse_SQL.py lines 603–695)

One rating entry is `{'data': {'node': <teacher node>}}`; the `.get(·, {})`
chain makes a missing node behave as an empty dict, whose `__typename`
(empty) fails the Teacher check.  The edge list carries each edge's
`node`. -/

structure RatingNode where
  typename : String
  nodeId : Option String
  legacyId : Option Int
  date : Option String
  className : Option String
  clarityRating : Option Int
  helpfulRating : Option Int
  difficultyRating : Option Int
  comment : Option String
  grade : Option String
  attendanceMandatory : Option String
  wouldTakeAgain : Option Int
  textbookUse : Option Int
  isForCredit : Bool
  isForOnlineClass : Bool
  flagStatus : Option String
  adminReviewedAt : Option String
  thumbsUpTotal : Option Int
  thumbsDownTotal : Option Int
  createdByUser : Bool
  ratingTags : Option String
deriving DecidableEq, Repr

structure TeacherNode where
  typename : String
  teacherId : Option String
  edges : List RatingNode
deriving DecidableEq, Repr

structure RatingEntry where
  node : Option TeacherNode
deriving DecidableEq, Repr

/-- One row of the `ratings` table (the `rating_id` primary key is the
1-based position in the table list). -/
structure RatingRow where
  professor_id : Nat
  rmp_rating_id : String
  legacyId : Option Int
  date : Option String
  className : Option String
  clarityRating : Option Int
  helpfulRating : Option Int
  difficultyRating : Option Int
  comment : Option String
  grade : Option String
  attendanceMandatory : Option String
  wouldTakeAgain : Option Int
  textbookUse : Option Int
  is_for_credit : Nat
  is_for_online_class : Nat
  flagStatus : Option String
  adminReviewedAt : Option String
  thumbs_up_total : Int
  thumbs_down_total : Int
  created_by_user : Nat
deriving DecidableEq, Repr

/-- State of the ratings ingestion: the `ratings` and `rating_tags` tables
and the two progress counters. -/
structure RatSt where
  ratingRows : List RatingRow
  tagRows : List (Nat × String)
  ratings_inserted : Nat
  tags_inserted : Nat
deriving DecidableEq, Repr

def RatSt.init : RatSt := ⟨[], [], 0, 0⟩

/-- Build the row inserted for one rating node (the value transforms of the
INSERT at parse_SQL.py lines 641–670). -/
def mkRatingRow (profId : Nat) (rid : String) (rn : RatingNode) : RatingRow :=
  { professor_id := profId
    rmp_rating_id := rid
    legacyId := rn.legacyId
    date := rn.date
    className := rn.className
    clarityRating := rn.clarityRating
    helpfulRating := rn.helpfulRating
    difficultyRating := rn.difficultyRating
    comment := rn.comment
    grade := rn.grade
    attendanceMandatory := rn.attendanceMandatory
    wouldTakeAgain := rn.wouldTakeAgain
    textbookUse := rn.textbookUse
    is_for_credit := if rn.isForCredit then 1 else 0
    is_for_online_class := if rn.isForOnlineClass then 1 else 0
    flagStatus := rn.flagStatus
    adminReviewedAt := rn.adminReviewedAt
    thumbs_up_total := rn.thumbsUpTotal.getD 0
    thumbs_down_total := rn.thumbsDownTotal.getD 0
    created_by_user := if rn.createdByUser then 1 else 0 }

/-- Process one rating edge for a teacher already mapped to `profId`:
skip non-`Rating` nodes and falsy ids, insert-or-ignore on the unique
`rmp_rating_id`, re-select the rating's id, then split, strip and insert
the `--`-delimited tag string. -/
def processRatingNode (profId : Nat) (st : RatSt) (rn : RatingNode) : RatSt :=
  if rn.typename ≠ "Rating" then st
  else
    match rn.nodeId with
    | none => st
    | some rid =>
      if rid = "" then st
      else
        let st1 :=
          if st.ratingRows.any (fun r => r.rmp_rating_id = rid) then st
          else { st with ratingRows := st.ratingRows ++ [mkRatingRow profId rid rn] }
        match st1.ratingRows.findIdx? (fun r => r.rmp_rating_id = rid) with
        | none => st1
        | some j =>
          let ratingDbId := j + 1
          let st2 := { st1 with ratings_inserted := st1.ratings_inserted + 1 }
          let tagsStr := rn.ratingTags.getD ""
          if tagsStr = "" then st2
          else
            let tags := ((tagsStr.splitOn "--").map pyStripS).filter (· ≠ "")
            { st2 with
                tagRows := st2.tagRows ++ tags.map (fun t => (ratingDbId, t)),
                tags_inserted := st2.tags_inserted + tags.length }

/-- Process one entry of `ratings.json`: only `Teacher` nodes whose truthy
external id maps to a known professor contribute rows. -/
def processRatingEntry (rmpMap : List (String × Nat)) (st : RatSt)
    (e : RatingEntry) : RatSt :=
  match e.node with
  | none => st
  | some t =>
    if t.typename ≠ "Teacher" then st
    else
      match t.teacherId with
      | none => st
      | some r =>
        if r = "" then st
        else
          match List.lookup r rmpMap with
          | none => st
          | some profId => t.edges.foldl (processRatingNode profId) st

/-- The function `insert_ratings`: fold the entries over the fresh ingestion state. -/
def insert_ratings (rmpMap : List (String × Nat))
    (ratings : List RatingEntry) : RatSt :=
  ratings.foldl (processRatingEntry rmpMap) RatSt.init

/-! ## `insert_courses_and_sections` (parse_SQL.py lines 459–600)

The structures mirror one course of `courses.json` with its sections and
time blocks; the run state carries the four tables the function writes,
the in-run instructor-name cache, the two name counters, and — for the
at-most-once claim — a log of every string the Matcher is invoked on. -/

structure TimeBlockIn where
  days : Option String
  start_time : Option String
  end_time : Option String
  building : Option String
  room : Option String
deriving DecidableEq, Repr

structure SectionIn where
  section_number : Option String
  fixed_or_variable : Option String
  credit_hours : Option String
  minimum_credit_hours : Option String
  honors : Option String
  credit_type : Option String
  section_type : Option String
  instructor_name : Option String
  instructor_id : Option String
  mode : Option String
  mode_desc : Option String
  times : Option (List TimeBlockIn)
deriving DecidableEq, Repr

structure CourseIn where
  year_term : Option String
  curriculum_id : Option String
  title_code : Option String
  dept_name : Option String
  catalog_number : Option String
  catalog_suffix : Option String
  title : Option String
  full_title : Option String
  sections : List SectionIn
deriving DecidableEq, Repr

/-- One row of the `sections` table. -/
structure SectionRow where
  course_id : Nat
  section_number : Option String
  fixed_or_variable : Option String
  credit_hours : Option String
  minimum_credit_hours : Option String
  honors : Option String
  credit_type : Option String
  section_type : Option String
  instructor_name : Option String
  instructor_id : Option String
  professor_id : Option Nat
  mode : Option String
  mode_desc : Option String
deriving DecidableEq, Repr

/-- One row of `professor_name_variants`. -/
structure VariantRow where
  professor_id : Nat
  variant_name : String
  source : String
  match_confidence : ℚ
deriving DecidableEq, Repr

/-- Run state of `insert_courses_and_sections`.  `courseKeys` is the
`courses` table (row `i` holds primary key `i + 1`); `matcherLog` records
each invocation of `match_professor_name` (not a Python-side structure —
it instruments the claim "matched at most once per run"). -/
structure BuildSt where
  courseKeys : List String
  sectionRows : List SectionRow
  timeRows : List (Nat × TimeBlockIn)
  variantRows : List VariantRow
  cache : List (String × Nat)
  matcherLog : List String
  name_matches : Nat
  name_misses : Nat
deriving DecidableEq, Repr

def BuildSt.init : BuildSt := ⟨[], [], [], [], [], [], 0, 0⟩

/-- Look a matched professor through its truthy external id into the
rmp-id-to-database-id map (the `rmp_id and rmp_id in rmp_id_to_db_id` test
at parse_SQL.py lines 526–527). -/
def profToPid (rmpMap : List (String × Nat)) : Option Prof → Option Nat
  | none => none
  | some prof =>
    match prof.rmpId with
    | none => none
    | some r => if r = "" then none else List.lookup r rmpMap

/-- The pure resolution a cache-missing instructor string gets: the Matcher
result, looked through the professor's truthy external id into the
rmp-id-to-database-id map. -/
def resolveName (ratioFn : String → String → ℚ) (professors : List Prof)
    (rmpMap : List (String × Nat)) (s : String) : Option Nat :=
  match match_professor_name ratioFn s professors with
  | none => none
  | some idx => profToPid rmpMap (professors.get? idx)

/-- On a successful map resolution, populate the cache, bump the matched
counter and record the name-variant audit row; an unresolved professor id
leaves the state untouched (parse_SQL.py lines 527–537). -/
def cacheInsertPhase (st1 : BuildSt) (s : String) :
    Option Nat → Option Nat × BuildSt
  | none => (none, st1)
  | some pid =>
    (some pid,
     { st1 with
         cache := st1.cache ++ [(s, pid)],
         name_matches := st1.name_matches + 1,
         variantRows := st1.variantRows ++
           [⟨pid, s, "courses.json", mkRat 9 10⟩] })

/-- The name-resolution step for one section (parse_SQL.py lines 513–539):
consult the cache; on a miss invoke the Matcher (logging the invocation);
only a match that resolves through the professor map is cached, counted,
and recorded as a name variant.  Returns the professor id for the row and
the updated state. -/
def resolveStep (ratioFn : String → String → ℚ) (professors : List Prof)
    (rmpMap : List (String × Nat)) (st : BuildSt) (s : String) :
    Option Nat × BuildSt :=
  match List.lookup s st.cache with
  | some pid => (some pid, st)
  | none =>
    let st1 := { st with matcherLog := st.matcherLog ++ [s] }
    match match_professor_name ratioFn s professors with
    | none => (none, { st1 with name_misses := st1.name_misses + 1 })
    | some idx => cacheInsertPhase st1 s (profToPid rmpMap (professors.get? idx))

/-- The per-section name handling wrapped around `resolveStep`: absent and
blank instructor names resolve to no professor without consulting cache or
Matcher (parse_SQL.py line 517). -/
def resolveForSection (ratioFn : String → String → ℚ) (professors : List Prof)
    (rmpMap : List (String × Nat)) (st : BuildSt) :
    Option String → Option Nat × BuildSt
  | none => (none, st)
  | some s =>
    if pyStripS s = "" then (none, st)
    else resolveStep ratioFn professors rmpMap st s

/-- The row built for one section (the INSERT at parse_SQL.py lines
542–562). -/
def mkSectionRow (courseId : Nat) (sec : SectionIn) (pid : Option Nat) :
    SectionRow :=
  { course_id := courseId
    section_number := sec.section_number
    fixed_or_variable := sec.fixed_or_variable
    credit_hours := sec.credit_hours
    minimum_credit_hours := sec.minimum_credit_hours
    honors := sec.honors
    credit_type := sec.credit_type
    section_type := sec.section_type
    instructor_name := sec.instructor_name
    instructor_id := sec.instructor_id
    professor_id := pid
    mode := sec.mode
    mode_desc := sec.mode_desc }

/-- The statement `INSERT OR IGNORE INTO sections`: ignored when `section_number` is
null (NOT NULL constraint) or the `(course_id, section_number)` unique key
already exists. -/
def insertRowPhase (courseId : Nat) (sec : SectionIn) (row : SectionRow)
    (st1 : BuildSt) : BuildSt :=
  if sec.section_number = none
      ∨ st1.sectionRows.any (fun r =>
          r.course_id = courseId ∧ r.section_number = sec.section_number) then
    st1
  else { st1 with sectionRows := st1.sectionRows ++ [row] }

/-- Re-select the section id by `(course_id, section_number)` (a null
section number selects nothing), then insert the time blocks when `times`
is a truthy list (parse_SQL.py lines 564–591). -/
def insertTimesPhase (courseId : Nat) (sec : SectionIn) (st2 : BuildSt) :
    BuildSt :=
  match sec.section_number with
  | none => st2
  | some _ =>
    match st2.sectionRows.findIdx? (fun r =>
        r.course_id = courseId ∧ r.section_number = sec.section_number) with
    | none => st2
    | some j =>
      match sec.times with
      | some (tb :: tbs) =>
        { st2 with
            timeRows := st2.timeRows ++
              ((tb :: tbs).map fun b => (j + 1, b)) }
      | _ => st2

/-- Process one section of a course with database id `courseId`: resolve
the instructor name, insert-or-ignore the section row, then re-select and
insert times. -/
def processSection (ratioFn : String → String → ℚ) (professors : List Prof)
    (rmpMap : List (String × Nat)) (courseId : Nat) (st : BuildSt)
    (sec : SectionIn) : BuildSt :=
  let resolved := resolveForSection ratioFn professors rmpMap st sec.instructor_name
  insertTimesPhase courseId sec
    (insertRowPhase courseId sec (mkSectionRow courseId sec resolved.1) resolved.2)

/-- Process one `(course_key, course)` item: insert-or-ignore the course by
its unique key, re-select its database id, then process its sections. -/
def processCourse (ratioFn : String → String → ℚ) (professors : List Prof)
    (rmpMap : List (String × Nat)) (st : BuildSt)
    (kv : String × CourseIn) : BuildSt :=
  let st1 :=
    if st.courseKeys.contains kv.1 then st
    else { st with courseKeys := st.courseKeys ++ [kv.1] }
  match st1.courseKeys.findIdx? (fun k => k = kv.1) with
  | none => st1
  | some j =>
    kv.2.sections.foldl (processSection ratioFn professors rmpMap (j + 1)) st1

/-- The function `insert_courses_and_sections`: fold the courses map over the fresh run
state. -/
def insert_courses_and_sections (ratioFn : String → String → ℚ)
    (courses : List (String × CourseIn)) (professors : List Prof)
    (rmpMap : List (String × Nat)) : BuildSt :=
  courses.foldl (processCourse ratioFn professors rmpMap) BuildSt.init

/-- The professor id every table row for instructor name `s` ends up with:
blank and absent names resolve to none, anything else to its pure
resolution. -/
def pidOfName (ratioFn : String → String → ℚ) (professors : List Prof)
    (rmpMap : List (String × Nat)) : Option String → Option Nat
  | none => none
  | some s => if pyStripS s = "" then none else resolveName ratioFn professors rmpMap s

/-- Cache correctness: every cached pair is the pure resolution of its
string. -/
def CacheOK (ratioFn : String → String → ℚ) (professors : List Prof)
    (rmpMap : List (String × Nat)) (st : BuildSt) : Prop :=
  ∀ p ∈ st.cache, resolveName ratioFn professors rmpMap p.1 = some p.2

/-- Log correctness for resolvable strings: such a string was sent to the
Matcher at most once, and it appears in the log exactly when it has been
cached. -/
def LogOK (ratioFn : String → String → ℚ) (professors : List Prof)
    (rmpMap : List (String × Nat)) (st : BuildSt) : Prop :=
  ∀ s, resolveName ratioFn professors rmpMap s ≠ none →
    st.matcherLog.count s ≤ 1
      ∧ (s ∈ st.matcherLog ↔ (List.lookup s st.cache).isSome = true)

/-- Row correctness: every section row carries the pure resolution of its
instructor name. -/
def RowsOK (ratioFn : String → String → ℚ) (professors : List Prof)
    (rmpMap : List (String × Nat)) (st : BuildSt) : Prop :=
  ∀ r ∈ st.sectionRows,
    r.professor_id = pidOfName ratioFn professors rmpMap r.instructor_name

/-- The run invariant of `insert_courses_and_sections`. -/
def BuildInv (ratioFn : String → String → ℚ) (professors : List Prof)
    (rmpMap : List (String × Nat)) (st : BuildSt) : Prop :=
  CacheOK ratioFn professors rmpMap st
    ∧ LogOK ratioFn professors rmpMap st
    ∧ RowsOK ratioFn professors rmpMap st

/-! # Theorems -/

/-! ## Order facts about `pyMax` -/

theorem blt_iff_lt (a b : ℚ) : Rat.blt a b = true ↔ a < b := Iff.rfl

theorem pyMax_eq_max (a b : ℚ) : pyMax a b = max a b := by
  unfold pyMax
  cases h : Rat.blt a b with
  | false =>
    have hnlt : ¬ a < b := fun hlt => by
      rw [← blt_iff_lt] at hlt; rw [h] at hlt; exact Bool.false_ne_true hlt
    simp [max_eq_left (le_of_not_lt hnlt)]
  | true =>
    have hlt : a < b := (blt_iff_lt a b).mp h
    simp [max_eq_right (le_of_lt hlt)]

/-! ## Claim C10 -/

/-- C10: `normalize_name` is not idempotent.  On `"a . b"` the period is
removed only after whitespace runs were collapsed, leaving two consecutive
internal spaces, so a second application changes the string again. -/
theorem c10_normalize_not_idempotent :
    normalize_name "a . b" = "a  b"
      ∧ normalize_name (normalize_name "a . b") ≠ normalize_name "a . b" := by
  decide

/-! ## Claim C2 -/

/-- C2 counterexample: on `"John Doe"` against the candidates
`{Jon, Doe}` and `{John, Doe}` the Matcher does **not** return candidate
index 1. -/
theorem c2_counterexample :
    match_professor_name ratioZero "John Doe"
      [⟨"Jon", "Doe", none⟩, ⟨"John", "Doe", none⟩] ≠ some 1 := by
  decide

/-- C2 amended: the Matcher returns candidate index 0.  Candidate 0 fails
the exact rule but fires the nickname rule (`jon` and `john` expand to a
common variant), and per-candidate rule evaluation proceeds in list order,
so candidate 1's exact match is never reached. -/
theorem c2_amended (ratioFn : String → String → ℚ) :
    match_professor_name ratioFn "John Doe"
        [⟨"Jon", "Doe", none⟩, ⟨"John", "Doe", none⟩] = some 0
      ∧ exactRuleB "john" "doe" ⟨"Jon", "Doe", none⟩ = false
      ∧ nickRuleB "john" "doe" ⟨"Jon", "Doe", none⟩ = true
      ∧ exactRuleB "john" "doe" ⟨"John", "Doe", none⟩ = true := by
  refine ⟨?_, by decide, by decide, by decide⟩
  simp only [match_professor_name]
  rw [if_neg (by decide : ¬ (pyStripS "John Doe" = ""))]
  rw [if_neg (by decide :
    ¬ ((parse_name "John Doe").first = "" ∨ (parse_name "John Doe").last = ""))]
  rw [(by decide : parse_name "John Doe" = ⟨"john", "doe", "", ""⟩)]
  simp only [enumIdx, matchLoop]
  rw [if_neg (by decide :
    ¬ (normalize_name "Jon" = "" ∨ normalize_name "Doe" = ""))]
  rw [if_neg (by decide : ¬ (exactRuleB "john" "doe" ⟨"Jon", "Doe", none⟩ = true))]
  rw [if_pos (by decide : nickRuleB "john" "doe" ⟨"Jon", "Doe", none⟩ = true)]

/-! ## Claim C4 -/

/-- C4 counterexample: `"J. Smith"` does not reduce to a single token
(period removal leaves the space, giving tokens `j` and `smith`), so
against the two-token candidate `{J, Smith}` the Matcher returns that
candidate — not "no match". -/
theorem c4_counterexample :
    match_professor_name ratioZero "J. Smith" [⟨"J", "Smith", none⟩] = some 0
      ∧ (some 0 : Option Nat) ≠ none
      ∧ pySplit (normalize_name "J. Smith") = ["j", "smith"] := by
  decide

/-- C4 amended: a string that really reduces to a single token after
period removal — `"J.Smith"`, with no space — has no resolvable last name,
and the Matcher returns "no match" for every candidate list. -/
theorem c4_amended (ratioFn : String → String → ℚ) (P : List Prof) :
    match_professor_name ratioFn "J.Smith" P = none
      ∧ pySplit (normalize_name "J.Smith") = ["jsmith"] := by
  refine ⟨?_, by decide⟩
  simp only [match_professor_name]
  rw [if_neg (by decide : ¬ (pyStripS "J.Smith" = ""))]
  rw [if_pos (Or.inr (by decide : (parse_name "J.Smith").last = ""))]

/-! ## Claim C5 -/

/-- C5 counterexample: `"."` and `""` have identical normalized forms (both
empty), yet `name_similarity` returns `0`, not `1.0` — the emptiness guard
fires before normalized forms are compared. -/
theorem c5_counterexample :
    normalize_name "." = normalize_name ""
      ∧ name_similarity ratioZero "." "" = 0
      ∧ name_similarity ratioZero "." "" ≠ 1 := by
  decide

/-- C5 amended: for every ratio function with range in `[0, 1]`,
`name_similarity` lies in `[0, 1]`; it equals `1.0` whenever the two raw
strings are **nonempty** and their normalized forms agree; and it is at
least `0.7` whenever the two normalized strings share a whitespace token. -/
theorem c5_amended (ratioFn : String → String → ℚ)
    (hr : ∀ x y, 0 ≤ ratioFn x y ∧ ratioFn x y ≤ 1) (a b : String) :
    (0 ≤ name_similarity ratioFn a b ∧ name_similarity ratioFn a b ≤ 1)
      ∧ (a ≠ "" → b ≠ "" → normalize_name a = normalize_name b →
          name_similarity ratioFn a b = 1)
      ∧ ((pySplit (normalize_name a)).any
            (fun p => (pySplit (normalize_name b)).contains p) = true →
          mkRat 7 10 ≤ name_similarity ratioFn a b) := by
  have h710_nonneg : (0 : ℚ) ≤ mkRat 7 10 := by decide
  have h710_le_one : (mkRat 7 10 : ℚ) ≤ 1 := by decide
  by_cases h1 : a = "" ∨ b = ""
  · have hempty : name_similarity ratioFn a b = 0 := by
      simp only [name_similarity]; rw [if_pos h1]
    refine ⟨⟨le_of_eq hempty.symm, by rw [hempty]; exact zero_le_one⟩, ?_, ?_⟩
    · intro ha hb _
      rcases h1 with h | h
      · exact absurd h ha
      · exact absurd h hb
    · intro hany
      exfalso
      have hsplit : pySplit (normalize_name "") = [] := by decide
      rcases h1 with h | h
      · rw [h, hsplit] at hany
        simp at hany
      · rw [h, hsplit] at hany
        simp at hany
  · by_cases h2 : normalize_name a = normalize_name b
    · have hone : name_similarity ratioFn a b = 1 := by
        simp only [name_similarity]; rw [if_neg h1, if_pos h2]
      refine ⟨⟨by rw [hone]; exact zero_le_one, le_of_eq hone⟩,
        fun _ _ _ => hone, fun _ => by rw [hone]; exact h710_le_one⟩
    · by_cases h3 : (pySplit (normalize_name a)).any
          (fun p => (pySplit (normalize_name b)).contains p) = true
      · have hval : name_similarity ratioFn a b =
            pyMax (ratioFn (normalize_name a) (normalize_name b)) (mkRat 7 10) := by
          simp only [name_similarity]; rw [if_neg h1, if_neg h2, if_pos h3]
        rw [hval, pyMax_eq_max]
        obtain ⟨hr0, hr1⟩ := hr (normalize_name a) (normalize_name b)
        exact ⟨⟨le_max_of_le_left hr0, max_le hr1 h710_le_one⟩,
          fun _ _ hn => absurd hn h2, fun _ => le_max_right _ _⟩
      · have hval : name_similarity ratioFn a b =
            ratioFn (normalize_name a) (normalize_name b) := by
          simp only [name_similarity]; rw [if_neg h1, if_neg h2, if_neg h3]
        rw [hval]
        obtain ⟨hr0, hr1⟩ := hr (normalize_name a) (normalize_name b)
        exact ⟨⟨hr0, hr1⟩, fun _ _ hn => absurd hn h2, fun hany => absurd hany h3⟩

/-- C5 witness: the amended bounds at the concrete ratio `ratioZero` and
the concrete pair `"John  Smith"`, `"john smith"` (equal normalized
forms). -/
theorem c5_witness :
    (0 ≤ name_similarity ratioZero "John  Smith" "john smith"
        ∧ name_similarity ratioZero "John  Smith" "john smith" ≤ 1)
      ∧ name_similarity ratioZero "John  Smith" "john smith" = 1 := by
  have h := c5_amended ratioZero
    (fun _ _ => ⟨le_refl 0, zero_le_one⟩) "John  Smith" "john smith"
  exact ⟨h.1, h.2.1 (by decide) (by decide) (by decide)⟩

/-! ## Claim C3 -/

theorem enumIdx_mem : ∀ (l : List Prof) (n i : Nat) (p : Prof),
    (i, p) ∈ enumIdx n l → n ≤ i ∧ l.get? (i - n) = some p := by
  intro l
  induction l with
  | nil => intro n i p h; simp [enumIdx] at h
  | cons q qs ih =>
    intro n i p h
    simp only [enumIdx, List.mem_cons] at h
    rcases h with h | h
    · injection h with h1 h2
      subst h1; subst h2
      simp
    · obtain ⟨hle, hget⟩ := ih (n + 1) i p h
      refine ⟨Nat.le_of_succ_le hle, ?_⟩
      have hin : i - n = (i - (n + 1)) + 1 := by omega
      rw [hin]
      simpa using hget

/-- Soundness invariant of the candidate loop: a returned index always
points at a candidate that fired the exact rule, fired the nickname rule,
or carries a combined fuzzy score of at least `0.75`. -/
theorem matchLoop_sound (ratioFn : String → String → ℚ) (f l : String)
    (P : List Prof) :
    ∀ (pairs : List (Nat × Prof)) (best : Option Nat) (bestSim : ℚ),
      (∀ jp ∈ pairs, P.get? jp.1 = some jp.2) →
      (∀ j, best = some j →
        ∃ q, P.get? j = some q ∧ mkRat 3 4 ≤ combinedScore ratioFn f l q) →
      ∀ i, matchLoop ratioFn f l pairs best bestSim = some i →
        ∃ q, P.get? i = some q ∧
          (exactRuleB f l q = true ∨ nickRuleB f l q = true ∨
            mkRat 3 4 ≤ combinedScore ratioFn f l q) := by
  intro pairs
  induction pairs with
  | nil =>
    intro best bestSim _ hbest i hrun
    simp only [matchLoop] at hrun
    obtain ⟨q, hq, hsc⟩ := hbest i hrun
    exact ⟨q, hq, Or.inr (Or.inr hsc)⟩
  | cons hd rest ih =>
    obtain ⟨idx, prof⟩ := hd
    intro best bestSim hpairs hbest i hrun
    have hhd : P.get? idx = some prof := hpairs (idx, prof) (List.mem_cons_self _ _)
    have hrest : ∀ jp ∈ rest, P.get? jp.1 = some jp.2 :=
      fun jp hjp => hpairs jp (List.mem_cons_of_mem _ hjp)
    simp only [matchLoop] at hrun
    by_cases hskip : normalize_name prof.firstName = "" ∨ normalize_name prof.lastName = ""
    · rw [if_pos hskip] at hrun
      exact ih best bestSim hrest hbest i hrun
    · rw [if_neg hskip] at hrun
      by_cases hex : exactRuleB f l prof = true
      · rw [if_pos hex] at hrun
        injection hrun with hi
        subst hi
        exact ⟨prof, hhd, Or.inl hex⟩
      · rw [if_neg hex] at hrun
        by_cases hnick : nickRuleB f l prof = true
        · rw [if_pos hnick] at hrun
          injection hrun with hi
          subst hi
          exact ⟨prof, hhd, Or.inr (Or.inl hnick)⟩
        · rw [if_neg hnick] at hrun
          by_cases hcond : Rat.blt bestSim (combinedScore ratioFn f l prof) = true
              ∧ ¬ Rat.blt (combinedScore ratioFn f l prof) (mkRat 3 4) = true
          · rw [if_pos hcond] at hrun
            refine ih _ _ hrest ?_ i hrun
            intro j hj
            injection hj with hj
            subst hj
            refine ⟨prof, hhd, ?_⟩
            have hnlt : ¬ combinedScore ratioFn f l prof < mkRat 3 4 := by
              rw [← blt_iff_lt]
              exact hcond.2
            exact le_of_not_lt hnlt
          · rw [if_neg hcond] at hrun
            exact ih best bestSim hrest hbest i hrun

/-- C3: if the Matcher returns candidate index `i`, and the choice was not
forced by the exact rule or the nickname rule, then that candidate's
combined score `0.4·firstSim + 0.6·lastSim` (raised to at least `0.85`
when both component similarities exceed `0.7` — that raise is part of
`combinedScore`) is at least the `0.75` acceptance threshold. -/
theorem c3_matcher_threshold (ratioFn : String → String → ℚ)
    (s : String) (P : List Prof) (i : Nat)
    (hrun : match_professor_name ratioFn s P = some i) :
    ∃ prof, P.get? i = some prof ∧
      (exactRuleB (parse_name s).first (parse_name s).last prof = true
        ∨ nickRuleB (parse_name s).first (parse_name s).last prof = true
        ∨ mkRat 3 4 ≤ combinedScore ratioFn
            (parse_name s).first (parse_name s).last prof) := by
  simp only [match_professor_name] at hrun
  by_cases hblank : pyStripS s = ""
  · rw [if_pos hblank] at hrun
    exact absurd hrun (by simp)
  · rw [if_neg hblank] at hrun
    by_cases hparse : (parse_name s).first = "" ∨ (parse_name s).last = ""
    · rw [if_pos hparse] at hrun
      exact absurd hrun (by simp)
    · rw [if_neg hparse] at hrun
      refine matchLoop_sound ratioFn (parse_name s).first (parse_name s).last P
        (enumIdx 0 P) none 0 ?_ ?_ i hrun
      · intro jp hjp
        have h := enumIdx_mem P 0 jp.1 jp.2 hjp
        simpa using h.2
      · intro j hj
        exact absurd hj (by simp)

/-- C3 witness: the theorem applied at a concrete run in which the exact
rule fires for candidate 0. -/
theorem c3_witness :
    ∃ prof, ([⟨"John", "Doe", none⟩] : List Prof).get? 0 = some prof ∧
      (exactRuleB (parse_name "John Doe").first (parse_name "John Doe").last prof = true
        ∨ nickRuleB (parse_name "John Doe").first (parse_name "John Doe").last prof = true
        ∨ mkRat 3 4 ≤ combinedScore ratioZero
            (parse_name "John Doe").first (parse_name "John Doe").last prof) :=
  c3_matcher_threshold ratioZero "John Doe" [⟨"John", "Doe", none⟩] 0 (by decide)

/-! ## Claim C7 -/

theorem pyReplaceChar_cons_ne (c : Char) (rep : List Char) (a : Char)
    (as : List Char) (h : ¬ a = c) :
    pyReplaceChar c rep (a :: as) = a :: pyReplaceChar c rep as := by
  simp only [pyReplaceChar]
  rw [if_neg h]

theorem pyReplaceChar_cons_eq (c : Char) (rep : List Char) (as : List Char) :
    pyReplaceChar c rep (c :: as) = rep ++ pyReplaceChar c rep as := by
  simp only [pyReplaceChar, eq_self_iff_true, if_true]

/-- Doubling quotes first and then doubling backslashes is the same as the
character-wise escape: the quote replacement introduces no backslashes and
the backslash replacement touches no quotes. -/
theorem replace_quotes_then_backslashes (l : List Char) :
    pyReplaceChar '\\' ['\\', '\\'] (pyReplaceChar '\'' ['\'', '\''] l)
      = (l.map sqlCharEsc).flatten := by
  induction l with
  | nil => rfl
  | cons a as ih =>
    by_cases h1 : a = '\''
    · subst h1
      rw [pyReplaceChar_cons_eq]
      have e2 : (['\'', '\''] : List Char) ++ pyReplaceChar '\'' ['\'', '\''] as
          = '\'' :: '\'' :: pyReplaceChar '\'' ['\'', '\''] as := rfl
      rw [e2, pyReplaceChar_cons_ne _ _ _ _ (by decide),
        pyReplaceChar_cons_ne _ _ _ _ (by decide), ih,
        List.map_cons, List.flatten_cons,
        (by decide : sqlCharEsc '\'' = ['\'', '\''])]
      rfl
    · by_cases h2 : a = '\\'
      · subst h2
        rw [pyReplaceChar_cons_ne _ _ _ _ (by decide), pyReplaceChar_cons_eq, ih,
          List.map_cons, List.flatten_cons,
          (by decide : sqlCharEsc '\\' = ['\\', '\\'])]
      · rw [pyReplaceChar_cons_ne _ _ _ _ h1, pyReplaceChar_cons_ne _ _ _ _ h2, ih,
          List.map_cons, List.flatten_cons]
        have e3 : sqlCharEsc a = [a] := by
          simp only [sqlCharEsc]
          rw [if_neg h1, if_neg h2]
        rw [e3]
        rfl

/-- C7: `escape_sql_string` renders `None` as the `NULL` keyword, booleans
as `TRUE`/`FALSE`, float NaN as `NULL`, the infinities as the quoted
sentinels `'Infinity'`/`'-Infinity'`, and every string with each single
quote doubled and each backslash doubled, wrapped in single-quote
delimiters. -/
theorem c7_escape_sql (floatRepr : ℚ → String) :
    escape_sql_string floatRepr .vnull = "NULL"
      ∧ escape_sql_string floatRepr (.vbool true) = "TRUE"
      ∧ escape_sql_string floatRepr (.vbool false) = "FALSE"
      ∧ escape_sql_string floatRepr (.vfloat .nan) = "NULL"
      ∧ escape_sql_string floatRepr (.vfloat .pinf) = "'Infinity'"
      ∧ escape_sql_string floatRepr (.vfloat .ninf) = "'-Infinity'"
      ∧ ∀ s : String, escape_sql_string floatRepr (.vstr s)
          = ⟨'\'' :: ((s.data.map sqlCharEsc).flatten ++ ['\''])⟩ := by
  refine ⟨rfl, rfl, rfl, rfl, rfl, rfl, fun s => ?_⟩
  simp only [escape_sql_string]
  rw [replace_quotes_then_backslashes]

/-! ## Claim C8 -/

theorem containsStr_iff (l : List String) (t : String) :
    l.contains t = true ↔ t ∈ l := by
  induction l with
  | nil => simp
  | cons a as ih => simp [List.contains] at ih ⊢

/-- Membership in the reordering fold: exactly the elements of the start
accumulator and of the folded list appear. -/
theorem foldl_reorder_mem : ∀ (l acc : List String) (t : String),
    t ∈ l.foldl (fun acc u => if acc.contains u then acc else acc ++ [u]) acc
      ↔ t ∈ acc ∨ t ∈ l := by
  intro l
  induction l with
  | nil => intro acc t; simp
  | cons h l2 ih =>
    intro acc t
    simp only [List.foldl_cons]
    by_cases hc : acc.contains h = true
    · rw [if_pos hc]
      rw [ih acc t]
      constructor
      · rintro (ht | ht)
        · exact Or.inl ht
        · exact Or.inr (List.mem_cons_of_mem _ ht)
      · rintro (ht | ht)
        · exact Or.inl ht
        · rcases List.mem_cons.mp ht with rfl | ht
          · exact Or.inl ((containsStr_iff acc t).mp hc)
          · exact Or.inr ht
    · rw [if_neg hc]
      rw [ih (acc ++ [h]) t]
      simp only [List.mem_append, List.mem_singleton, List.mem_cons]
      tauto

/-- Shape of the reordering fold: the accumulator is kept as a prefix and
only new elements of the folded list are appended. -/
theorem foldl_reorder_shape : ∀ (l acc : List String),
    ∃ extra,
      l.foldl (fun acc u => if acc.contains u then acc else acc ++ [u]) acc
          = acc ++ extra
        ∧ ∀ t ∈ extra, t ∈ l ∧ t ∉ acc := by
  intro l
  induction l with
  | nil => intro acc; exact ⟨[], by simp, by simp⟩
  | cons h l2 ih =>
    intro acc
    simp only [List.foldl_cons]
    by_cases hc : acc.contains h = true
    · rw [if_pos hc]
      obtain ⟨extra, heq, hprop⟩ := ih acc
      exact ⟨extra, heq, fun t ht =>
        ⟨List.mem_cons_of_mem _ (hprop t ht).1, (hprop t ht).2⟩⟩
    · rw [if_neg hc]
      obtain ⟨extra, heq, hprop⟩ := ih (acc ++ [h])
      refine ⟨h :: extra, by rw [heq]; simp, ?_⟩
      intro t ht
      rcases List.mem_cons.mp ht with rfl | ht
      · exact ⟨List.mem_cons_self _ _,
          fun hmem => hc ((containsStr_iff acc t).mpr hmem)⟩
      · have h2 := hprop t ht
        refine ⟨List.mem_cons_of_mem _ h2.1, fun hmem => h2.2 ?_⟩
        simp [hmem]

theorem dropsOf_map_dropT (l : List String) : dropsOf (l.map .dropT) = l := by
  induction l with
  | nil => rfl
  | cons a as ih => simp only [dropsOf, List.map_cons, List.filterMap_cons] at ih ⊢; simp [ih]

theorem dropsOf_map_createT (l : List String) : dropsOf (l.map .createT) = [] := by
  induction l with
  | nil => rfl
  | cons a as ih => simp only [dropsOf, List.map_cons, List.filterMap_cons] at ih ⊢; simp [ih]

theorem dropsOf_map_indexT (l : List String) : dropsOf (l.map .indexT) = [] := by
  induction l with
  | nil => rfl
  | cons a as ih => simp only [dropsOf, List.map_cons, List.filterMap_cons] at ih ⊢; simp [ih]

theorem dropsOf_map_insertT (l : List String) : dropsOf (l.map .insertT) = [] := by
  induction l with
  | nil => rfl
  | cons a as ih => simp only [dropsOf, List.map_cons, List.filterMap_cons] at ih ⊢; simp [ih]

theorem createsOf_map_dropT (l : List String) : createsOf (l.map .dropT) = [] := by
  induction l with
  | nil => rfl
  | cons a as ih => simp only [createsOf, List.map_cons, List.filterMap_cons] at ih ⊢; simp [ih]

theorem createsOf_map_createT (l : List String) : createsOf (l.map .createT) = l := by
  induction l with
  | nil => rfl
  | cons a as ih => simp only [createsOf, List.map_cons, List.filterMap_cons] at ih ⊢; simp [ih]

theorem createsOf_map_indexT (l : List String) : createsOf (l.map .indexT) = [] := by
  induction l with
  | nil => rfl
  | cons a as ih => simp only [createsOf, List.map_cons, List.filterMap_cons] at ih ⊢; simp [ih]

theorem createsOf_map_insertT (l : List String) : createsOf (l.map .insertT) = [] := by
  induction l with
  | nil => rfl
  | cons a as ih => simp only [createsOf, List.map_cons, List.filterMap_cons] at ih ⊢; simp [ih]

theorem insertsOf_map_dropT (l : List String) : insertsOf (l.map .dropT) = [] := by
  induction l with
  | nil => rfl
  | cons a as ih => simp only [insertsOf, List.map_cons, List.filterMap_cons] at ih ⊢; simp [ih]

theorem insertsOf_map_createT (l : List String) : insertsOf (l.map .createT) = [] := by
  induction l with
  | nil => rfl
  | cons a as ih => simp only [insertsOf, List.map_cons, List.filterMap_cons] at ih ⊢; simp [ih]

theorem insertsOf_map_indexT (l : List String) : insertsOf (l.map .indexT) = [] := by
  induction l with
  | nil => rfl
  | cons a as ih => simp only [insertsOf, List.map_cons, List.filterMap_cons] at ih ⊢; simp [ih]

theorem insertsOf_map_insertT (l : List String) : insertsOf (l.map .insertT) = l := by
  induction l with
  | nil => rfl
  | cons a as ih => simp only [insertsOf, List.map_cons, List.filterMap_cons] at ih ⊢; simp [ih]

theorem dropsOf_append (l1 l2 : List SqlStmt) :
    dropsOf (l1 ++ l2) = dropsOf l1 ++ dropsOf l2 := by
  simp [dropsOf, List.filterMap_append]

theorem createsOf_append (l1 l2 : List SqlStmt) :
    createsOf (l1 ++ l2) = createsOf l1 ++ createsOf l2 := by
  simp [createsOf, List.filterMap_append]

theorem insertsOf_append (l1 l2 : List SqlStmt) :
    insertsOf (l1 ++ l2) = insertsOf l1 ++ insertsOf l2 := by
  simp [insertsOf, List.filterMap_append]

/-- C8: in the combined export script the drop statements are the exact
reverse of the create statements; tables are created in the reordered
sequence, which lists the fixed-order tables present in the database first
(in fixed order) followed only by tables outside the fixed list; insert
statements follow the creation order, restricted to tables with rows; and
the reordered sequence contains exactly the discovered tables. -/
theorem c8_export_order (all_tables : List String) (rowCount : String → Nat) :
    dropsOf (exportStmts all_tables rowCount)
        = (createsOf (exportStmts all_tables rowCount)).reverse
      ∧ createsOf (exportStmts all_tables rowCount) = orderedTables all_tables
      ∧ insertsOf (exportStmts all_tables rowCount)
          = (orderedTables all_tables).filter (fun t => rowCount t ≠ 0)
      ∧ (∀ t, t ∈ orderedTables all_tables ↔ t ∈ all_tables)
      ∧ ∃ extra, orderedTables all_tables
            = (table_order.filter fun t => all_tables.contains t) ++ extra
          ∧ ∀ t ∈ extra, t ∉ table_order := by
  have hdrops : dropsOf (exportStmts all_tables rowCount)
      = (orderedTables all_tables).reverse := by
    unfold exportStmts
    rw [dropsOf_append, dropsOf_append, dropsOf_append, dropsOf_map_dropT,
      dropsOf_map_createT, dropsOf_map_indexT, dropsOf_map_insertT]
    simp
  have hcreates : createsOf (exportStmts all_tables rowCount)
      = orderedTables all_tables := by
    unfold exportStmts
    rw [createsOf_append, createsOf_append, createsOf_append, createsOf_map_dropT,
      createsOf_map_createT, createsOf_map_indexT, createsOf_map_insertT]
    simp
  have hinserts : insertsOf (exportStmts all_tables rowCount)
      = (orderedTables all_tables).filter (fun t => rowCount t ≠ 0) := by
    unfold exportStmts
    rw [insertsOf_append, insertsOf_append, insertsOf_append, insertsOf_map_dropT,
      insertsOf_map_createT, insertsOf_map_indexT, insertsOf_map_insertT]
    simp
  refine ⟨by rw [hdrops, hcreates], hcreates, hinserts, ?_, ?_⟩
  · intro t
    unfold orderedTables
    rw [foldl_reorder_mem]
    constructor
    · rintro (ht | ht)
      · exact ((containsStr_iff _ _).mp (List.mem_filter.mp ht).2)
    
      · exact ht
    · intro ht
      exact Or.inr ht
  · unfold orderedTables
    obtain ⟨extra, heq, hprop⟩ :=
      foldl_reorder_shape all_tables (table_order.filter fun t => all_tables.contains t)
    refine ⟨extra, heq, fun t ht hto => ?_⟩
    obtain ⟨hall, hnin⟩ := hprop t ht
    exact hnin (List.mem_filter.mpr ⟨hto, (containsStr_iff _ _).mpr hall⟩)

/-- C8 witness: concrete discovered tables `[ratings, zzz_extra,
professors]` reorder to the fixed-order prefix with the extra appended. -/
theorem c8_witness :
    "professors" ∈ orderedTables ["ratings", "zzz_extra", "professors"] :=
  ((c8_export_order ["ratings", "zzz_extra", "professors"]
      (fun _ => 0)).2.2.2.1 "professors").mpr (by decide)

/-! ## Claim C9 -/

/-- C9: a rating entry whose teacher node has an absent (or empty, or
unmapped) external id is dropped silently: processing it leaves the whole
ingestion state — ratings table, tag table and both counters — unchanged,
and the remaining entries are processed as if it were not there. -/
theorem c9_ratings_drop (rmpMap : List (String × Nat)) (e : RatingEntry)
    (t : TeacherNode) (hnode : e.node = some t)
    (hteacher : t.typename = "Teacher")
    (hdrop : t.teacherId = none
      ∨ ∃ r, t.teacherId = some r ∧ (r = "" ∨ List.lookup r rmpMap = none)) :
    (∀ st, processRatingEntry rmpMap st e = st)
      ∧ ∀ pre post, insert_ratings rmpMap (pre ++ e :: post)
          = insert_ratings rmpMap (pre ++ post) := by
  have h1 : ∀ st, processRatingEntry rmpMap st e = st := by
    intro st
    simp only [processRatingEntry, hnode]
    rw [if_neg (show ¬ t.typename ≠ "Teacher" from fun h => h hteacher)]
    rcases hdrop with hid | ⟨r, hid, hcase⟩
    · rw [hid]
    · rw [hid]
      change (if r = "" then st
        else match List.lookup r rmpMap with
          | none => st
          | some profId => List.foldl (processRatingNode profId) st t.edges) = st
      rcases hcase with hr | hr
      · rw [if_pos hr]
      · by_cases hre : r = ""
        · rw [if_pos hre]
        · rw [if_neg hre, hr]
  refine ⟨h1, fun pre post => ?_⟩
  unfold insert_ratings
  rw [List.foldl_append, List.foldl_cons, h1, ← List.foldl_append]

/-- C9 witness: a concrete entry whose teacher id `X` is not among the
known professors is a no-op even though it carries a well-formed rating
edge. -/
theorem c9_witness :
    processRatingEntry [("Y", 3)] RatSt.init
        ⟨some ⟨"Teacher", some "X",
          [⟨"Rating", some "R1", none, none, none, none, none, none, none,
            none, none, none, none, false, false, none, none, none, none,
            false, some "great--fun"⟩]⟩⟩ = RatSt.init := by
  have h := c9_ratings_drop [("Y", 3)]
    ⟨some ⟨"Teacher", some "X",
      [⟨"Rating", some "R1", none, none, none, none, none, none, none,
        none, none, none, none, false, false, none, none, none, none,
        false, some "great--fun"⟩]⟩⟩
    ⟨"Teacher", some "X",
      [⟨"Rating", some "R1", none, none, none, none, none, none, none,
        none, none, none, none, false, false, none, none, none, none,
        false, some "great--fun"⟩]⟩
    rfl rfl (Or.inr ⟨"X", rfl, Or.inr (by decide)⟩)
  exact h.1 RatSt.init

/-! ## Claim C6 -/

theorem lookupKV_cons (k k0 : String) (v0 : JVal) (rest : List (String × JVal)) :
    List.lookup k ((k0, v0) :: rest)
      = if k = k0 then some v0 else List.lookup k rest := by
  by_cases h : k = k0
  · simp [List.lookup, h]
  · have hb : (k == k0) = false := beq_eq_false_iff_ne.mpr h
    simp [List.lookup, hb, h]

theorem lookupKV_append (k : String) (l1 l2 : List (String × JVal)) :
    List.lookup k (l1 ++ l2)
      = match List.lookup k l1 with
        | some v => some v
        | none => List.lookup k l2 := by
  induction l1 with
  | nil => rfl
  | cons kv rest ih =>
    obtain ⟨k0, v0⟩ := kv
    by_cases h : k = k0
    · simp [lookupKV_cons, h]
    · simp only [List.cons_append, lookupKV_cons, if_neg h]
      exact ih

theorem lookup_isSome_of_mem_keys (k : String) (l : List (String × JVal))
    (h : k ∈ l.map Prod.fst) : (List.lookup k l).isSome = true := by
  induction l with
  | nil => simp at h
  | cons kv rest ih =>
    obtain ⟨k0, v0⟩ := kv
    rw [lookupKV_cons]
    by_cases hk : k = k0
    · rw [if_pos hk]; rfl
    · rw [if_neg hk]
      refine ih ?_
      simp only [List.map_cons, List.mem_cons] at h
      exact h.resolve_left hk

theorem setKey_keys (l : List (String × JVal)) (k : String) (v : JVal) :
    (setKey l k v).map Prod.fst = l.map Prod.fst := by
  induction l with
  | nil => rfl
  | cons kv rest ih =>
    obtain ⟨k0, v0⟩ := kv
    simp only [setKey]
    by_cases h : k0 = k
    · rw [if_pos h]; simp
    · rw [if_neg h]; simp [ih]

theorem lookup_setKey_self (l : List (String × JVal)) (k : String) (v : JVal)
    (h : (List.lookup k l).isSome = true) :
    List.lookup k (setKey l k v) = some v := by
  induction l with
  | nil => simp [List.lookup] at h
  | cons kv rest ih =>
    obtain ⟨k0, v0⟩ := kv
    simp only [setKey]
    by_cases hk : k0 = k
    · rw [if_pos hk, lookupKV_cons, if_pos hk.symm]
    · rw [if_neg hk, lookupKV_cons, if_neg (fun he => hk he.symm)]
      refine ih ?_
      rw [lookupKV_cons, if_neg (fun he => hk he.symm)] at h
      exact h

theorem setKey_self_of_lookup (l : List (String × JVal)) (k : String) (v : JVal)
    (h : List.lookup k l = some v) : setKey l k v = l := by
  induction l with
  | nil => rfl
  | cons kv rest ih =>
    obtain ⟨k0, v0⟩ := kv
    rw [lookupKV_cons] at h
    simp only [setKey]
    by_cases hk : k0 = k
    · rw [if_pos hk]
      rw [if_pos hk.symm] at h
      injection h with h
      rw [h]
    · rw [if_neg hk]
      rw [if_neg (fun he => hk he.symm)] at h
      rw [ih h]

theorem addMissing_keys : ∀ (fs : List String) (r : List (String × JVal))
    (f : String), f ∈ fs ∨ f ∈ r.map Prod.fst →
    f ∈ (addMissing fs r).1.map Prod.fst := by
  intro fs
  induction fs with
  | nil =>
    intro r f h
    simp only [addMissing]
    exact h.resolve_left (by simp)
  | cons g gs ih =>
    intro r f h
    simp only [addMissing]
    by_cases hc : (r.map Prod.fst).contains g = true
    · rw [if_pos hc]
      refine ih r f ?_
      rcases h with h | h
      · rcases List.mem_cons.mp h with rfl | h
        · exact Or.inr ((containsStr_iff _ _).mp hc)
        · exact Or.inl h
      · exact Or.inr h
    · rw [if_neg hc]
      refine ih (r ++ [(g, JVal.null)]) f ?_
      rcases h with h | h
      · rcases List.mem_cons.mp h with rfl | h
        · refine Or.inr ?_
          simp
        · exact Or.inl h
      · refine Or.inr ?_
        simp [h]

theorem addMissing_of_complete : ∀ (fs : List String) (r : List (String × JVal)),
    (∀ f ∈ fs, (r.map Prod.fst).contains f = true) → addMissing fs r = (r, 0) := by
  intro fs
  induction fs with
  | nil => intro r _; rfl
  | cons g gs ih =>
    intro r h
    simp only [addMissing]
    rw [if_pos (h g (List.mem_cons_self _ _))]
    exact ih r fun f hf => h f (List.mem_cons_of_mem _ hf)

theorem addMissing_hasFields (fs : List String) (r : List (String × JVal)) :
    hasFields fs (addMissing fs r).1 = true := by
  rw [hasFields, List.all_eq_true]
  intro f hf
  exact (containsStr_iff _ _).mpr (addMissing_keys fs r f (Or.inl hf))

theorem addMissing_of_hasFields (fs : List String) (r : List (String × JVal))
    (h : hasFields fs r = true) : addMissing fs r = (r, 0) := by
  rw [hasFields, List.all_eq_true] at h
  exact addMissing_of_complete fs r h

theorem addMissing_lookup_getD : ∀ (fs : List String) (r : List (String × JVal))
    (k : String),
    (List.lookup k (addMissing fs r).1).getD JVal.null
      = (List.lookup k r).getD JVal.null := by
  intro fs
  induction fs with
  | nil => intro r k; rfl
  | cons g gs ih =>
    intro r k
    simp only [addMissing]
    by_cases hc : (r.map Prod.fst).contains g = true
    · rw [if_pos hc]
      exact ih r k
    · rw [if_neg hc]
      rw [ih (r ++ [(g, JVal.null)]) k]
      rw [lookupKV_append]
      cases hl : List.lookup k r with
      | some v => rfl
      | none =>
        rw [lookupKV_cons]
        by_cases hk : k = g
        · rw [if_pos hk]; rfl
        · rw [if_neg hk]; rfl

theorem hasFields_setKey (fs : List String) (l : List (String × JVal))
    (k : String) (v : JVal) :
    hasFields fs (setKey l k v) = hasFields fs l := by
  simp [hasFields, setKey_keys]

theorem mapMOpt_mem {α β : Type} (f : α → Option β) :
    ∀ (l : List α) (bs : List β), mapMOpt f l = some bs →
      ∀ b ∈ bs, ∃ a ∈ l, f a = some b := by
  intro l
  induction l with
  | nil =>
    intro bs h b hb
    simp only [mapMOpt, Option.some.injEq] at h
    subst h
    simp at hb
  | cons a as ih =>
    intro bs h b hb
    simp only [mapMOpt] at h
    cases hfa : f a with
    | none => rw [hfa] at h; cases h
    | some b0 =>
      rw [hfa] at h
      cases hrest : mapMOpt f as with
      | none => rw [hrest] at h; cases h
      | some bs0 =>
        rw [hrest] at h
        simp only [Option.some.injEq] at h
        subst h
        rcases List.mem_cons.mp hb with rfl | hb
        · exact ⟨a, List.mem_cons_self _ _, hfa⟩
        · obtain ⟨a2, ha2, hfa2⟩ := ih bs0 hrest b hb
          exact ⟨a2, List.mem_cons_of_mem _ ha2, hfa2⟩

theorem mapMOpt_of_forall {α β : Type} (f : α → Option β) (g : α → β) :
    ∀ (l : List α), (∀ a ∈ l, f a = some (g a)) →
      mapMOpt f l = some (l.map g) := by
  intro l
  induction l with
  | nil => intro _; rfl
  | cons a as ih =>
    intro h
    simp only [mapMOpt]
    rw [h a (List.mem_cons_self _ _), ih fun x hx => h x (List.mem_cons_of_mem _ hx)]
    rfl

/-- Completeness and idempotence of the time-block normalizer. -/
theorem normalizeTimeBlock_sound (tb : JVal) :
    timeBlockComplete (normalizeTimeBlock tb).1 = true
      ∧ normalizeTimeBlock (normalizeTimeBlock tb).1
          = ((normalizeTimeBlock tb).1, 0) := by
  cases tb with
  | obj l =>
    refine ⟨addMissing_hasFields time_fields l, ?_⟩
    simp only [normalizeTimeBlock]
    rw [addMissing_of_hasFields _ _ (addMissing_hasFields time_fields l)]
  | null => exact ⟨rfl, rfl⟩
  | jbool b => exact ⟨rfl, rfl⟩
  | jint n => exact ⟨rfl, rfl⟩
  | jstr s => exact ⟨rfl, rfl⟩
  | arr a => exact ⟨rfl, rfl⟩

theorem map_fst_pairZero (ts : List JVal) :
    List.map Prod.fst (List.map (fun b => ((b : JVal), (0 : Nat))) ts) = ts := by
  induction ts with
  | nil => rfl
  | cons a as ihx => rw [List.map_cons, List.map_cons, ihx]

theorem map_snd_pairZero (ts : List JVal) :
    (List.map Prod.snd (List.map (fun b => ((b : JVal), (0 : Nat))) ts)).sum = 0 := by
  induction ts with
  | nil => rfl
  | cons a as ihx => rw [List.map_cons, List.map_cons, List.sum_cons, ihx]

/-- A section object whose fields are complete and whose truthy-list
`times` blocks are fixed points of the block normalizer is itself a fixed
point contributing zero insertions. -/
theorem normalizeSection_complete_noop (l2 : List (String × JVal))
    (hf : hasFields section_fields l2 = true)
    (hv : ∀ ts, (List.lookup "times" l2).getD JVal.null = JVal.arr ts →
        jtruthy (JVal.arr ts) = true →
        ∀ b ∈ ts, normalizeTimeBlock b = (b, 0)) :
    normalizeSection (JVal.obj l2) = some (JVal.obj l2, 0) := by
  simp only [normalizeSection, addMissing_of_hasFields _ _ hf]
  by_cases ht : jtruthy ((List.lookup "times" l2).getD JVal.null) = true
  · rw [if_pos ht]
    cases hval : (List.lookup "times" l2).getD JVal.null with
    | arr ts =>
      rw [hval] at ht
      have hfix : ∀ b ∈ ts, normalizeTimeBlock b = (b, 0) := hv ts hval ht
      have hmap : ts.map normalizeTimeBlock = ts.map (fun b => (b, 0)) :=
        List.map_congr_left hfix
      have hlook : List.lookup "times" l2 = some (JVal.arr ts) := by
        cases hl : List.lookup "times" l2 with
        | none => rw [hl] at hval; cases hval
        | some v => rw [hl] at hval; simp at hval; rw [hval]
      simp only [hmap]
      rw [map_fst_pairZero, map_snd_pairZero,
        setKey_self_of_lookup l2 "times" (JVal.arr ts) hlook]
    | null => rfl
    | jbool b => rfl
    | jint n0 => rfl
    | jstr s0 => rfl
    | obj o => rfl
  · rw [if_neg ht]

/-- Field-completeness of a section object whose `times` blocks (when a
list) are complete. -/
theorem sectionComplete_of (l2 : List (String × JVal))
    (hf : hasFields section_fields l2 = true)
    (hv : ∀ ts, (List.lookup "times" l2).getD JVal.null = JVal.arr ts →
        ∀ b ∈ ts, timeBlockComplete b = true) :
    sectionComplete (JVal.obj l2) = true := by
  simp only [sectionComplete, hf, Bool.true_and]
  cases hval : (List.lookup "times" l2).getD JVal.null with
  | arr ts =>
    rw [List.all_eq_true]
    exact hv ts hval
  | null => rfl
  | jbool b => rfl
  | jint n0 => rfl
  | jstr s0 => rfl
  | obj o => rfl

/-- Completeness and idempotence of the section normalizer on every
successful run. -/
theorem normalizeSection_sound (s s2 : JVal) (n : Nat)
    (h : normalizeSection s = some (s2, n)) :
    sectionComplete s2 = true ∧ normalizeSection s2 = some (s2, 0) := by
  cases s with
  | null => exact absurd h (by simp [normalizeSection])
  | jbool b => exact absurd h (by simp [normalizeSection])
  | jint n0 => exact absurd h (by simp [normalizeSection])
  | jstr s0 => exact absurd h (by simp [normalizeSection])
  | arr a => exact absurd h (by simp [normalizeSection])
  | obj l =>
    simp only [normalizeSection] at h
    by_cases ht : jtruthy
        ((List.lookup "times" (addMissing section_fields l).1).getD JVal.null) = true
    · rw [if_pos ht] at h
      cases hval : (List.lookup "times" (addMissing section_fields l).1).getD
          JVal.null with
      | arr ts =>
        rw [hval] at h ht
        simp only [Option.some.injEq, Prod.mk.injEq] at h
        obtain ⟨hs2, _⟩ := h
        subst hs2
        have hlook1 : List.lookup "times" (addMissing section_fields l).1
            = some (JVal.arr ts) := by
          cases hl : List.lookup "times" (addMissing section_fields l).1 with
          | none => rw [hl] at hval; cases hval
          | some v => rw [hl] at hval; simp at hval; rw [hval]
        have hsome : (List.lookup "times" (addMissing section_fields l).1).isSome
            = true := by rw [hlook1]; rfl
        have hlook2 : List.lookup "times"
            (setKey (addMissing section_fields l).1 "times"
              (JVal.arr ((ts.map normalizeTimeBlock).map Prod.fst)))
            = some (JVal.arr ((ts.map normalizeTimeBlock).map Prod.fst)) :=
          lookup_setKey_self _ _ _ hsome
        have hval2 : (List.lookup "times"
            (setKey (addMissing section_fields l).1 "times"
              (JVal.arr ((ts.map normalizeTimeBlock).map Prod.fst)))).getD JVal.null
            = JVal.arr ((ts.map normalizeTimeBlock).map Prod.fst) := by
          rw [hlook2]; rfl
        have hfsk : hasFields section_fields
            (setKey (addMissing section_fields l).1 "times"
              (JVal.arr ((ts.map normalizeTimeBlock).map Prod.fst))) = true := by
          rw [hasFields_setKey]
          exact addMissing_hasFields _ _
        have hmem : ∀ b ∈ (ts.map normalizeTimeBlock).map Prod.fst,
            ∃ a, b = (normalizeTimeBlock a).1 := by
          intro b hb
          simp only [List.map_map, List.mem_map] at hb
          obtain ⟨a, _, hab⟩ := hb
          exact ⟨a, hab.symm⟩
        constructor
        · refine sectionComplete_of _ hfsk ?_
          intro ts0 hts0 b hb
          rw [hval2] at hts0
          injection hts0 with hts0
          rw [← hts0] at hb
          obtain ⟨a, rfl⟩ := hmem b hb
          exact (normalizeTimeBlock_sound a).1
        · refine normalizeSection_complete_noop _ hfsk ?_
          intro ts0 hts0 _ b hb
          rw [hval2] at hts0
          injection hts0 with hts0
          rw [← hts0] at hb
          obtain ⟨a, rfl⟩ := hmem b hb
          exact (normalizeTimeBlock_sound a).2
      | null => rw [hval] at ht; simp [jtruthy] at ht
      | jbool b =>
        rw [hval] at h ht
        simp only [Option.some.injEq, Prod.mk.injEq] at h
        obtain ⟨hs2, _⟩ := h
        subst hs2
        refine ⟨sectionComplete_of _ (addMissing_hasFields _ _) ?_,
          normalizeSection_complete_noop _ (addMissing_hasFields _ _) ?_⟩
        · intro ts0 hts0
          rw [hval] at hts0; cases hts0
        · intro ts0 hts0
          rw [hval] at hts0; cases hts0
      | jint n1 =>
        rw [hval] at h ht
        simp only [Option.some.injEq, Prod.mk.injEq] at h
        obtain ⟨hs2, _⟩ := h
        subst hs2
        refine ⟨sectionComplete_of _ (addMissing_hasFields _ _) ?_,
          normalizeSection_complete_noop _ (addMissing_hasFields _ _) ?_⟩
        · intro ts0 hts0
          rw [hval] at hts0; cases hts0
        · intro ts0 hts0
          rw [hval] at hts0; cases hts0
      | jstr s1 =>
        rw [hval] at h ht
        simp only [Option.some.injEq, Prod.mk.injEq] at h
        obtain ⟨hs2, _⟩ := h
        subst hs2
        refine ⟨sectionComplete_of _ (addMissing_hasFields _ _) ?_,
          normalizeSection_complete_noop _ (addMissing_hasFields _ _) ?_⟩
        · intro ts0 hts0
          rw [hval] at hts0; cases hts0
        · intro ts0 hts0
          rw [hval] at hts0; cases hts0
      | obj o =>
        rw [hval] at h ht
        simp only [Option.some.injEq, Prod.mk.injEq] at h
        obtain ⟨hs2, _⟩ := h
        subst hs2
        refine ⟨sectionComplete_of _ (addMissing_hasFields _ _) ?_,
          normalizeSection_complete_noop _ (addMissing_hasFields _ _) ?_⟩
        · intro ts0 hts0
          rw [hval] at hts0; cases hts0
        · intro ts0 hts0
          rw [hval] at hts0; cases hts0
    · rw [if_neg ht] at h
      simp only [Option.some.injEq, Prod.mk.injEq] at h
      obtain ⟨hs2, _⟩ := h
      subst hs2
      have hemp : ∀ ts, (List.lookup "times" (addMissing section_fields l).1).getD
          JVal.null = JVal.arr ts → ts = [] := by
        intro ts hts
        rw [hts] at ht
        cases ts with
        | nil => rfl
        | cons x xs => exact absurd rfl ht
      refine ⟨sectionComplete_of _ (addMissing_hasFields _ _) ?_,
        normalizeSection_complete_noop _ (addMissing_hasFields _ _) ?_⟩
      · intro ts0 hts0 b hb
        rw [hemp ts0 hts0] at hb
        simp at hb
      · intro ts0 hts0 htr
        rw [hts0] at ht
        exact absurd htr ht

/-- A course object whose fields are complete, whose truthy `sections`
value is a list, and whose sections are fixed points of the section
normalizer, is itself a fixed point contributing zero insertions. -/
theorem normalizeCourse_complete_noop (l2 : List (String × JVal))
    (hf : hasFields course_fields l2 = true)
    (hv : ∀ ss, (List.lookup "sections" l2).getD JVal.null = JVal.arr ss →
        jtruthy (JVal.arr ss) = true →
        ∀ b ∈ ss, normalizeSection b = some (b, 0))
    (hna : ∀ v, (List.lookup "sections" l2).getD JVal.null = v →
        jtruthy v = true → ∃ ss, v = JVal.arr ss) :
    normalizeCourse (JVal.obj l2) = some (JVal.obj l2, 0) := by
  simp only [normalizeCourse, addMissing_of_hasFields _ _ hf]
  by_cases ht : jtruthy ((List.lookup "sections" l2).getD JVal.null) = true
  · rw [if_pos ht]
    cases hval : (List.lookup "sections" l2).getD JVal.null with
    | arr ss =>
      rw [hval] at ht
      have hlook : List.lookup "sections" l2 = some (JVal.arr ss) := by
        cases hl : List.lookup "sections" l2 with
        | none => rw [hl] at hval; cases hval
        | some v => rw [hl] at hval; simp at hval; rw [hval]
      change (match mapMOpt normalizeSection ss with
        | none => none
        | some results =>
          some (JVal.obj (setKey l2 "sections" (JVal.arr (results.map Prod.fst))),
            0 + (results.map Prod.snd).sum)) = some (JVal.obj l2, 0)
      rw [mapMOpt_of_forall normalizeSection (fun b => (b, 0)) ss (hv ss hval ht)]
      change some (JVal.obj (setKey l2 "sections"
          (JVal.arr (List.map Prod.fst (List.map (fun b => ((b : JVal), (0 : Nat))) ss)))),
          0 + (List.map Prod.snd (List.map (fun b => ((b : JVal), (0 : Nat))) ss)).sum)
        = some (JVal.obj l2, 0)
      rw [map_fst_pairZero, map_snd_pairZero,
        setKey_self_of_lookup l2 "sections" (JVal.arr ss) hlook]
    | null => rw [hval] at ht; exact absurd ht (by decide)
    | jbool b =>
      rw [hval] at ht
      obtain ⟨ss, hss⟩ := hna (JVal.jbool b) hval ht
      cases hss
    | jint n0 =>
      rw [hval] at ht
      obtain ⟨ss, hss⟩ := hna (JVal.jint n0) hval ht
      cases hss
    | jstr s0 =>
      rw [hval] at ht
      obtain ⟨ss, hss⟩ := hna (JVal.jstr s0) hval ht
      cases hss
    | obj o =>
      rw [hval] at ht
      obtain ⟨ss, hss⟩ := hna (JVal.obj o) hval ht
      cases hss
  · rw [if_neg ht]

/-- Field-completeness of a course object whose sections (when a list) are
complete. -/
theorem courseComplete_of (l2 : List (String × JVal))
    (hf : hasFields course_fields l2 = true)
    (hv : ∀ ss, (List.lookup "sections" l2).getD JVal.null = JVal.arr ss →
        ∀ b ∈ ss, sectionComplete b = true) :
    courseComplete (JVal.obj l2) = true := by
  simp only [courseComplete, hf, Bool.true_and]
  cases hval : (List.lookup "sections" l2).getD JVal.null with
  | arr ss =>
    rw [List.all_eq_true]
    exact hv ss hval
  | null => rfl
  | jbool b => rfl
  | jint n0 => rfl
  | jstr s0 => rfl
  | obj o => rfl

/-- Completeness and idempotence of the course normalizer on every
successful run. -/
theorem normalizeCourse_sound (c c2 : JVal) (n : Nat)
    (h : normalizeCourse c = some (c2, n)) :
    courseComplete c2 = true ∧ normalizeCourse c2 = some (c2, 0) := by
  cases c with
  | null => exact absurd h (by simp [normalizeCourse])
  | jbool b => exact absurd h (by simp [normalizeCourse])
  | jint n0 => exact absurd h (by simp [normalizeCourse])
  | jstr s0 => exact absurd h (by simp [normalizeCourse])
  | arr a => exact absurd h (by simp [normalizeCourse])
  | obj l =>
    simp only [normalizeCourse] at h
    by_cases ht : jtruthy
        ((List.lookup "sections" (addMissing course_fields l).1).getD JVal.null) = true
    · rw [if_pos ht] at h
      cases hval : (List.lookup "sections" (addMissing course_fields l).1).getD
          JVal.null with
      | arr ss =>
        rw [hval] at h ht
        change (match mapMOpt normalizeSection ss with
          | none => none
          | some results =>
            some (JVal.obj (setKey (addMissing course_fields l).1 "sections"
                (JVal.arr (results.map Prod.fst))),
              (addMissing course_fields l).2 + (results.map Prod.snd).sum))
          = some (c2, n) at h
        cases hmm : mapMOpt normalizeSection ss with
        | none => rw [hmm] at h; exact Option.noConfusion h
        | some results =>
          rw [hmm] at h
          simp only [Option.some.injEq, Prod.mk.injEq] at h
          obtain ⟨hc2, _⟩ := h
          subst hc2
          have hlook1 : List.lookup "sections" (addMissing course_fields l).1
              = some (JVal.arr ss) := by
            cases hl : List.lookup "sections" (addMissing course_fields l).1 with
            | none => rw [hl] at hval; cases hval
            | some v => rw [hl] at hval; simp at hval; rw [hval]
          have hsome : (List.lookup "sections"
              (addMissing course_fields l).1).isSome = true := by
            rw [hlook1]; rfl
          have hlook2 : List.lookup "sections"
              (setKey (addMissing course_fields l).1 "sections"
                (JVal.arr (results.map Prod.fst)))
              = some (JVal.arr (results.map Prod.fst)) :=
            lookup_setKey_self _ _ _ hsome
          have hval2 : (List.lookup "sections"
              (setKey (addMissing course_fields l).1 "sections"
                (JVal.arr (results.map Prod.fst)))).getD JVal.null
              = JVal.arr (results.map Prod.fst) := by
            rw [hlook2]; rfl
          have hfsk : hasFields course_fields
              (setKey (addMissing course_fields l).1 "sections"
                (JVal.arr (results.map Prod.fst))) = true := by
            rw [hasFields_setKey]
            exact addMissing_hasFields _ _
          have hmem : ∀ b ∈ results.map Prod.fst,
              ∃ a n0, normalizeSection a = some (b, n0) := by
            intro b hb
            simp only [List.mem_map] at hb
            obtain ⟨⟨b0, n0⟩, hmemr, hfst⟩ := hb
            obtain ⟨a, _, hfa⟩ :=
              mapMOpt_mem normalizeSection ss results hmm (b0, n0) hmemr
            refine ⟨a, n0, ?_⟩
            rw [hfa]
            simp only at hfst
            rw [hfst]
          constructor
          · refine courseComplete_of _ hfsk ?_
            intro ss0 hss0 b hb
            rw [hval2] at hss0
            injection hss0 with hss0
            rw [← hss0] at hb
            obtain ⟨a, n0, hfa⟩ := hmem b hb
            exact (normalizeSection_sound a b n0 hfa).1
          · refine normalizeCourse_complete_noop _ hfsk ?_ ?_
            · intro ss0 hss0 _ b hb
              rw [hval2] at hss0
              injection hss0 with hss0
              rw [← hss0] at hb
              obtain ⟨a, n0, hfa⟩ := hmem b hb
              exact (normalizeSection_sound a b n0 hfa).2
            · intro v hveq _
              rw [hval2] at hveq
              exact ⟨results.map Prod.fst, hveq.symm⟩
      | null => rw [hval] at ht; exact absurd ht (by decide)
      | jbool b => rw [hval] at h; cases h
      | jint n1 => rw [hval] at h; cases h
      | jstr s1 => rw [hval] at h; cases h
      | obj o => rw [hval] at h; cases h
    · rw [if_neg ht] at h
      simp only [Option.some.injEq, Prod.mk.injEq] at h
      obtain ⟨hc2, _⟩ := h
      subst hc2
      have hemp : ∀ ss, (List.lookup "sections" (addMissing course_fields l).1).getD
          JVal.null = JVal.arr ss → ss = [] := by
        intro ss hss
        rw [hss] at ht
        cases ss with
        | nil => rfl
        | cons x xs => exact absurd rfl ht
      refine ⟨courseComplete_of _ (addMissing_hasFields _ _) ?_,
        normalizeCourse_complete_noop _ (addMissing_hasFields _ _) ?_ ?_⟩
      · intro ss0 hss0 b hb
        rw [hemp ss0 hss0] at hb
        simp at hb
      · intro ss0 hss0 htr
        rw [hss0] at ht
        exact absurd htr ht
      · intro v hveq htr
        rw [hveq] at ht
        exact absurd htr ht

/-- C6: on every successful run of the Field Normalizer Pass, each course
record, each section record, and each dict time block of the output
carries every field of its declared field set, and a second application
returns the output unchanged with zero reported insertions. -/
theorem c6_normalize_schema : ∀ (cs cs2 : List (String × JVal)) (n : Nat),
    normalize_schema cs = some (cs2, n) →
    (cs2.all fun kv => courseComplete kv.2) = true
      ∧ normalize_schema cs2 = some (cs2, 0) := by
  intro cs
  induction cs with
  | nil =>
    intro cs2 n h
    simp only [normalize_schema, Option.some.injEq, Prod.mk.injEq] at h
    obtain ⟨h1, _⟩ := h
    subst h1
    exact ⟨rfl, rfl⟩
  | cons kv rest ih =>
    intro cs2 n h
    obtain ⟨k, v⟩ := kv
    simp only [normalize_schema] at h
    cases hcv : normalizeCourse v with
    | none => rw [hcv] at h; cases h
    | some p =>
      obtain ⟨v2, n1⟩ := p
      rw [hcv] at h
      cases hrest : normalize_schema rest with
      | none => rw [hrest] at h; cases h
      | some q =>
        obtain ⟨rest2, n2⟩ := q
        rw [hrest] at h
        simp only [Option.some.injEq, Prod.mk.injEq] at h
        obtain ⟨hcs2, _⟩ := h
        subst hcs2
        obtain ⟨hcomp, hnoop⟩ := normalizeCourse_sound v v2 n1 hcv
        obtain ⟨hall, hrest0⟩ := ih rest2 n2 hrest
        refine ⟨?_, ?_⟩
        · simp [List.all_cons, hcomp, hall]
        · simp only [normalize_schema, hnoop, hrest0]

/-- C6 witness: one course record carrying only a `title`; the pass
reports eight inserted nulls and its output is complete and a fixed
point. -/
theorem c6_witness :
    (([("C1", JVal.obj
        [("title", JVal.jstr "T"), ("catalog_number", JVal.null),
         ("catalog_suffix", JVal.null), ("curriculum_id", JVal.null),
         ("dept_name", JVal.null), ("full_title", JVal.null),
         ("sections", JVal.null), ("title_code", JVal.null),
         ("year_term", JVal.null)])] :
      List (String × JVal)).all fun kv => courseComplete kv.2) = true
    ∧ normalize_schema
        [("C1", JVal.obj
          [("title", JVal.jstr "T"), ("catalog_number", JVal.null),
           ("catalog_suffix", JVal.null), ("curriculum_id", JVal.null),
           ("dept_name", JVal.null), ("full_title", JVal.null),
           ("sections", JVal.null), ("title_code", JVal.null),
           ("year_term", JVal.null)])]
      = some ([("C1", JVal.obj
          [("title", JVal.jstr "T"), ("catalog_number", JVal.null),
           ("catalog_suffix", JVal.null), ("curriculum_id", JVal.null),
           ("dept_name", JVal.null), ("full_title", JVal.null),
           ("sections", JVal.null), ("title_code", JVal.null),
           ("year_term", JVal.null)])], 0) :=
  c6_normalize_schema
    [("C1", JVal.obj [("title", JVal.jstr "T")])]
    [("C1", JVal.obj
      [("title", JVal.jstr "T"), ("catalog_number", JVal.null),
       ("catalog_suffix", JVal.null), ("curriculum_id", JVal.null),
       ("dept_name", JVal.null), ("full_title", JVal.null),
       ("sections", JVal.null), ("title_code", JVal.null),
       ("year_term", JVal.null)])]
    8 rfl

/-! ## Claim C1 -/

theorem lookupG_cons {β : Type} (k k0 : String) (v0 : β)
    (rest : List (String × β)) :
    List.lookup k ((k0, v0) :: rest)
      = if k = k0 then some v0 else List.lookup k rest := by
  by_cases h : k = k0
  · simp [List.lookup, h]
  · have hb : (k == k0) = false := beq_eq_false_iff_ne.mpr h
    simp [List.lookup, hb, h]

theorem lookupG_mem {β : Type} (k : String) (v : β) :
    ∀ l : List (String × β), List.lookup k l = some v → (k, v) ∈ l := by
  intro l
  induction l with
  | nil => intro h; cases h
  | cons kv rest ih =>
    obtain ⟨k0, v0⟩ := kv
    intro h
    rw [lookupG_cons] at h
    by_cases hk : k = k0
    · rw [if_pos hk] at h
      injection h with h
      subst hk; subst h
      exact List.mem_cons_self _ _
    · rw [if_neg hk] at h
      exact List.mem_cons_of_mem _ (ih h)

theorem lookupG_append_right {β : Type} (k : String) (l1 l2 : List (String × β))
    (h : List.lookup k l1 = none) :
    List.lookup k (l1 ++ l2) = List.lookup k l2 := by
  induction l1 with
  | nil => rfl
  | cons kv rest ih =>
    obtain ⟨k0, v0⟩ := kv
    rw [lookupG_cons] at h
    by_cases hk : k = k0
    · rw [if_pos hk] at h; cases h
    · rw [if_neg hk] at h
      simp only [List.cons_append, lookupG_cons, if_neg hk]
      exact ih h

theorem lookupG_append_left {β : Type} (k : String) (l1 l2 : List (String × β))
    (v : β) (h : List.lookup k l1 = some v) :
    List.lookup k (l1 ++ l2) = some v := by
  induction l1 with
  | nil => cases h
  | cons kv rest ih =>
    obtain ⟨k0, v0⟩ := kv
    rw [lookupG_cons] at h
    simp only [List.cons_append, lookupG_cons]
    by_cases hk : k = k0
    · rw [if_pos hk] at h
      rw [if_pos hk]
      exact h
    · rw [if_neg hk] at h
      rw [if_neg hk]
      exact ih h

theorem resolveName_of_matcher_none {ratioFn : String → String → ℚ}
    {professors : List Prof} {rmpMap : List (String × Nat)} {s : String}
    (hm : match_professor_name ratioFn s professors = none) :
    resolveName ratioFn professors rmpMap s = none := by
  unfold resolveName
  rw [hm]

theorem resolveName_of_matcher_some {ratioFn : String → String → ℚ}
    {professors : List Prof} {rmpMap : List (String × Nat)} {s : String}
    {idx : Nat} (hm : match_professor_name ratioFn s professors = some idx) :
    resolveName ratioFn professors rmpMap s
      = profToPid rmpMap (professors.get? idx) := by
  unfold resolveName
  rw [hm]

/-- Behaviour of `resolveStep` under the run invariant: it returns the pure
resolution of `s`, preserves cache and log correctness, and does not touch
the sections table. -/
theorem resolveStep_spec (ratioFn : String → String → ℚ)
    (professors : List Prof) (rmpMap : List (String × Nat)) (st : BuildSt)
    (s : String) (hc : CacheOK ratioFn professors rmpMap st)
    (hl : LogOK ratioFn professors rmpMap st) :
    (resolveStep ratioFn professors rmpMap st s).1
        = resolveName ratioFn professors rmpMap s
      ∧ CacheOK ratioFn professors rmpMap (resolveStep ratioFn professors rmpMap st s).2
      ∧ LogOK ratioFn professors rmpMap (resolveStep ratioFn professors rmpMap st s).2
      ∧ (resolveStep ratioFn professors rmpMap st s).2.sectionRows = st.sectionRows := by
  cases hcache : List.lookup s st.cache with
  | some pid =>
    have heq : resolveStep ratioFn professors rmpMap st s = (some pid, st) := by
      unfold resolveStep
      rw [hcache]
    have hres : resolveName ratioFn professors rmpMap s = some pid :=
      hc (s, pid) (lookupG_mem s pid st.cache hcache)
    rw [heq]
    exact ⟨hres.symm, hc, hl, rfl⟩
  | none =>
    cases hm : match_professor_name ratioFn s professors with
    | none =>
      have heq : resolveStep ratioFn professors rmpMap st s
          = (none, { st with matcherLog := st.matcherLog ++ [s],
                             name_misses := st.name_misses + 1 }) := by
        unfold resolveStep
        rw [hcache, hm]
      have hres : resolveName ratioFn professors rmpMap s = none :=
        resolveName_of_matcher_none hm
      rw [heq]
      refine ⟨hres.symm, hc, ?_, rfl⟩
      intro t hrt
      obtain ⟨hcount, hmem⟩ := hl t hrt
      by_cases hts : t = s
      · subst hts
        exact absurd hres hrt
      · constructor
        · show List.count t (st.matcherLog ++ [s]) ≤ 1
          rw [List.count_append]
          have h0 : List.count t [s] = 0 := by
            simp [List.count_cons, hts]
          omega
        · show t ∈ st.matcherLog ++ [s] ↔ (List.lookup t st.cache).isSome = true
          rw [List.mem_append]
          simp only [List.mem_singleton]
          constructor
          · rintro (h | h)
            · exact hmem.mp h
            · exact absurd h hts
          · intro h
            exact Or.inl (hmem.mpr h)
    | some idx =>
      cases hpo : profToPid rmpMap (professors.get? idx) with
      | none =>
        have heq : resolveStep ratioFn professors rmpMap st s
            = (none, { st with matcherLog := st.matcherLog ++ [s] }) := by
          unfold resolveStep
          rw [hcache, hm]
          change cacheInsertPhase { st with matcherLog := st.matcherLog ++ [s] } s
            (profToPid rmpMap (professors.get? idx)) = _
          rw [hpo]
          rfl
        have hres : resolveName ratioFn professors rmpMap s = none := by
          rw [resolveName_of_matcher_some hm, hpo]
        rw [heq]
        refine ⟨hres.symm, hc, ?_, rfl⟩
        intro t hrt
        obtain ⟨hcount, hmem⟩ := hl t hrt
        by_cases hts : t = s
        · subst hts
          exact absurd hres hrt
        · constructor
          · show List.count t (st.matcherLog ++ [s]) ≤ 1
            rw [List.count_append]
            have h0 : List.count t [s] = 0 := by
              simp [List.count_cons, hts]
            omega
          · show t ∈ st.matcherLog ++ [s] ↔ (List.lookup t st.cache).isSome = true
            rw [List.mem_append]
            simp only [List.mem_singleton]
            constructor
            · rintro (h | h)
              · exact hmem.mp h
              · exact absurd h hts
            · intro h
              exact Or.inl (hmem.mpr h)
      | some pid =>
        have heq : resolveStep ratioFn professors rmpMap st s
            = (some pid,
               { st with matcherLog := st.matcherLog ++ [s],
                         cache := st.cache ++ [(s, pid)],
                         name_matches := st.name_matches + 1,
                         variantRows := st.variantRows ++
                           [⟨pid, s, "courses.json", mkRat 9 10⟩] }) := by
          unfold resolveStep
          rw [hcache, hm]
          change cacheInsertPhase { st with matcherLog := st.matcherLog ++ [s] } s
            (profToPid rmpMap (professors.get? idx)) = _
          rw [hpo]
          rfl
        have hres : resolveName ratioFn professors rmpMap s = some pid := by
          rw [resolveName_of_matcher_some hm, hpo]
        rw [heq]
        refine ⟨hres.symm, ?_, ?_, rfl⟩
        · intro p hp
          rcases List.mem_append.mp hp with hp | hp
          · exact hc p hp
          · rcases List.mem_singleton.mp hp with rfl
            exact hres
        · intro t hrt
          by_cases hts : t = s
          · subst hts
            obtain ⟨hcount, hmem⟩ := hl t hrt
            have hnotin : t ∉ st.matcherLog := by
              intro hin
              have h2 := hmem.mp hin
              rw [hcache] at h2
              cases h2
            constructor
            · show List.count t (st.matcherLog ++ [t]) ≤ 1
              rw [List.count_append]
              have h0 : st.matcherLog.count t = 0 :=
                List.count_eq_zero.mpr hnotin
              have h1 : List.count t [t] = 1 := by
                simp [List.count_cons]
              omega
            · show t ∈ st.matcherLog ++ [t]
                ↔ (List.lookup t (st.cache ++ [(t, pid)])).isSome = true
              constructor
              · intro _
                rw [lookupG_append_right t st.cache _ hcache, lookupG_cons,
                  if_pos rfl]
                rfl
              · intro _
                rw [List.mem_append]
                exact Or.inr (List.mem_singleton.mpr rfl)
          · obtain ⟨hcount, hmem⟩ := hl t hrt
            constructor
            · show List.count t (st.matcherLog ++ [s]) ≤ 1
              rw [List.count_append]
              have h0 : List.count t [s] = 0 := by
                simp [List.count_cons, hts]
              omega
            · show t ∈ st.matcherLog ++ [s]
                ↔ (List.lookup t (st.cache ++ [(s, pid)])).isSome = true
              have hlk : List.lookup t (st.cache ++ [(s, pid)])
                  = List.lookup t st.cache := by
                cases hct : List.lookup t st.cache with
                | some v => exact lookupG_append_left t st.cache _ v hct
                | none =>
                  rw [lookupG_append_right t st.cache _ hct, lookupG_cons,
                    if_neg hts]
                  rfl
              rw [hlk, List.mem_append]
              simp only [List.mem_singleton]
              constructor
              · rintro (h | h)
                · exact hmem.mp h
                · exact absurd h hts
              · intro h
                exact Or.inl (hmem.mpr h)

/-- Behaviour of the per-section name wrapper: absent and blank names skip
resolution entirely; otherwise `resolveStep` applies. -/
theorem resolveForSection_spec (ratioFn : String → String → ℚ)
    (professors : List Prof) (rmpMap : List (String × Nat)) (st : BuildSt)
    (name : Option String) (hc : CacheOK ratioFn professors rmpMap st)
    (hl : LogOK ratioFn professors rmpMap st) :
    (resolveForSection ratioFn professors rmpMap st name).1
        = pidOfName ratioFn professors rmpMap name
      ∧ CacheOK ratioFn professors rmpMap
          (resolveForSection ratioFn professors rmpMap st name).2
      ∧ LogOK ratioFn professors rmpMap
          (resolveForSection ratioFn professors rmpMap st name).2
      ∧ (resolveForSection ratioFn professors rmpMap st name).2.sectionRows
          = st.sectionRows := by
  cases name with
  | none => exact ⟨rfl, hc, hl, rfl⟩
  | some s =>
    by_cases hb : pyStripS s = ""
    · have heq : resolveForSection ratioFn professors rmpMap st (some s)
          = (none, st) := by
        unfold resolveForSection
        change (if pyStripS s = "" then (none, st)
          else resolveStep ratioFn professors rmpMap st s) = _
        rw [if_pos hb]
      have hpid : pidOfName ratioFn professors rmpMap (some s) = none := by
        unfold pidOfName
        change (if pyStripS s = "" then none
          else resolveName ratioFn professors rmpMap s) = _
        rw [if_pos hb]
      rw [heq, hpid]
      exact ⟨rfl, hc, hl, rfl⟩
    · have heq : resolveForSection ratioFn professors rmpMap st (some s)
          = resolveStep ratioFn professors rmpMap st s := by
        unfold resolveForSection
        change (if pyStripS s = "" then (none, st)
          else resolveStep ratioFn professors rmpMap st s) = _
        rw [if_neg hb]
      have hpid : pidOfName ratioFn professors rmpMap (some s)
          = resolveName ratioFn professors rmpMap s := by
        unfold pidOfName
        change (if pyStripS s = "" then none
          else resolveName ratioFn professors rmpMap s) = _
        rw [if_neg hb]
      rw [heq, hpid]
      obtain ⟨h1, h2, h3, h4⟩ := resolveStep_spec ratioFn professors rmpMap st s hc hl
      exact ⟨h1, h2, h3, h4⟩

/-- The insert-or-ignore phase only ever appends the new row, and touches
neither the cache nor the Matcher log. -/
theorem insertRowPhase_spec (courseId : Nat) (sec : SectionIn)
    (row : SectionRow) (st1 : BuildSt) :
    ((insertRowPhase courseId sec row st1).sectionRows = st1.sectionRows
        ∨ (insertRowPhase courseId sec row st1).sectionRows
            = st1.sectionRows ++ [row])
      ∧ (insertRowPhase courseId sec row st1).cache = st1.cache
      ∧ (insertRowPhase courseId sec row st1).matcherLog = st1.matcherLog := by
  unfold insertRowPhase
  split
  · exact ⟨Or.inl rfl, rfl, rfl⟩
  · exact ⟨Or.inr rfl, rfl, rfl⟩

/-- The time-block phase touches only the `section_times` table. -/
theorem insertTimesPhase_spec (courseId : Nat) (sec : SectionIn)
    (st2 : BuildSt) :
    (insertTimesPhase courseId sec st2).sectionRows = st2.sectionRows
      ∧ (insertTimesPhase courseId sec st2).cache = st2.cache
      ∧ (insertTimesPhase courseId sec st2).matcherLog = st2.matcherLog := by
  unfold insertTimesPhase
  repeat' split
  all_goals exact ⟨rfl, rfl, rfl⟩

/-- Processing one section preserves the run invariant. -/
theorem processSection_inv (ratioFn : String → String → ℚ)
    (professors : List Prof) (rmpMap : List (String × Nat)) (courseId : Nat)
    (st : BuildSt) (sec : SectionIn)
    (h : BuildInv ratioFn professors rmpMap st) :
    BuildInv ratioFn professors rmpMap
      (processSection ratioFn professors rmpMap courseId st sec) := by
  obtain ⟨hc, hl, hr⟩ := h
  obtain ⟨h1, h2, h3, h4⟩ :=
    resolveForSection_spec ratioFn professors rmpMap st sec.instructor_name hc hl
  obtain ⟨hrow_or, hrcache, hrlog⟩ :=
    insertRowPhase_spec courseId sec
      (mkSectionRow courseId sec
        (resolveForSection ratioFn professors rmpMap st sec.instructor_name).1)
      (resolveForSection ratioFn professors rmpMap st sec.instructor_name).2
  obtain ⟨htrows, htcache, htlog⟩ :=
    insertTimesPhase_spec courseId sec
      (insertRowPhase courseId sec
        (mkSectionRow courseId sec
          (resolveForSection ratioFn professors rmpMap st sec.instructor_name).1)
        (resolveForSection ratioFn professors rmpMap st sec.instructor_name).2)
  show BuildInv ratioFn professors rmpMap
    (insertTimesPhase courseId sec
      (insertRowPhase courseId sec
        (mkSectionRow courseId sec
          (resolveForSection ratioFn professors rmpMap st sec.instructor_name).1)
        (resolveForSection ratioFn professors rmpMap st sec.instructor_name).2))
  refine ⟨?_, ?_, ?_⟩
  · intro p hp
    rw [htcache, hrcache] at hp
    exact h2 p hp
  · intro t hrt
    obtain ⟨hcnt, hmem⟩ := h3 t hrt
    constructor
    · rw [htlog, hrlog]
      exact hcnt
    · rw [htlog, hrlog, htcache, hrcache]
      exact hmem
  · intro r hrmem
    rw [htrows] at hrmem
    rcases hrow_or with he | he
    · rw [he, h4] at hrmem
      exact hr r hrmem
    · rw [he] at hrmem
      rcases List.mem_append.mp hrmem with hrm | hrm
      · rw [h4] at hrm
        exact hr r hrm
      · rcases List.mem_singleton.mp hrm with rfl
        show (resolveForSection ratioFn professors rmpMap st sec.instructor_name).1
          = pidOfName ratioFn professors rmpMap sec.instructor_name
        exact h1

/-- Processing one course preserves the run invariant (the course-key
phase touches only the `courses` table). -/
theorem processCourse_inv (ratioFn : String → String → ℚ)
    (professors : List Prof) (rmpMap : List (String × Nat)) (st : BuildSt)
    (kv : String × CourseIn) (h : BuildInv ratioFn professors rmpMap st) :
    BuildInv ratioFn professors rmpMap
      (processCourse ratioFn professors rmpMap st kv) := by
  have hfold : ∀ (l : List SectionIn) (st0 : BuildSt) (courseId : Nat),
      BuildInv ratioFn professors rmpMap st0 →
      BuildInv ratioFn professors rmpMap
        (l.foldl (processSection ratioFn professors rmpMap courseId) st0) := by
    intro l
    induction l with
    | nil => intro st0 courseId h0; exact h0
    | cons a as ih =>
      intro st0 courseId h0
      exact ih _ courseId (processSection_inv ratioFn professors rmpMap courseId st0 a h0)
  have hst1 : BuildInv ratioFn professors rmpMap
      (if st.courseKeys.contains kv.1 then st
       else { st with courseKeys := st.courseKeys ++ [kv.1] }) := by
    split
    · exact h
    · obtain ⟨hc, hl, hr⟩ := h
      exact ⟨hc, hl, hr⟩
  simp only [processCourse]
  split
  · exact hst1
  · exact hfold kv.2.sections _ _ hst1

/-- C1 amended: in every run of `insert_courses_and_sections`, any two
section rows with the same raw instructor-name string receive the same
professor-id resolution, and a string whose resolution succeeds (the
Matcher finds a candidate whose external id maps to a known professor) is
sent to the Matcher at most once.  (Strings that fail to resolve are
re-matched on each occurrence — no "no reference" result is cached.) -/
theorem c1_amended (ratioFn : String → String → ℚ)
    (courses : List (String × CourseIn)) (professors : List Prof)
    (rmpMap : List (String × Nat)) :
    (∀ r1 ∈ (insert_courses_and_sections ratioFn courses professors rmpMap).sectionRows,
      ∀ r2 ∈ (insert_courses_and_sections ratioFn courses professors rmpMap).sectionRows,
        r1.instructor_name = r2.instructor_name →
          r1.professor_id = r2.professor_id)
      ∧ (∀ s, resolveName ratioFn professors rmpMap s ≠ none →
          (insert_courses_and_sections ratioFn courses professors
            rmpMap).matcherLog.count s ≤ 1) := by
  have hinit : BuildInv ratioFn professors rmpMap BuildSt.init := by
    refine ⟨?_, ?_, ?_⟩
    · intro p hp
      cases hp
    · intro s _
      constructor
      · show List.count s ([] : List String) ≤ 1
        simp
      · show s ∈ ([] : List String) ↔ (List.lookup s ([] : List (String × Nat))).isSome = true
        simp [List.lookup]
    · intro r hrm
      cases hrm
  have hfold : ∀ (l : List (String × CourseIn)) (st : BuildSt),
      BuildInv ratioFn professors rmpMap st →
      BuildInv ratioFn professors rmpMap
        (l.foldl (processCourse ratioFn professors rmpMap) st) := by
    intro l
    induction l with
    | nil => intro st h0; exact h0
    | cons a as ih =>
      intro st h0
      exact ih _ (processCourse_inv ratioFn professors rmpMap st a h0)
  obtain ⟨hc, hl, hr⟩ := hfold courses BuildSt.init hinit
  constructor
  · intro r1 h1 r2 h2 hname
    rw [hr r1 h1, hr r2 h2, hname]
  · intro s hs
    exact (hl s hs).1

/-- C1 counterexample: with an empty professor catalog, two sections that
share the raw instructor string `"Zz"` (which fails to match) cause two
Matcher invocations on the same string in one run — the "no reference"
result of the first failure is not cached. -/
theorem c1_counterexample :
    (insert_courses_and_sections ratioZero
        [("K", ⟨none, none, none, none, none, none, none, none,
          [⟨some "001", none, none, none, none, none, none, some "Zz",
            none, none, none, none⟩,
           ⟨some "002", none, none, none, none, none, none, some "Zz",
            none, none, none, none⟩]⟩)]
        [] []).matcherLog.count "Zz" = 2
      ∧ ¬ ((insert_courses_and_sections ratioZero
        [("K", ⟨none, none, none, none, none, none, none, none,
          [⟨some "001", none, none, none, none, none, none, some "Zz",
            none, none, none, none⟩,
           ⟨some "002", none, none, none, none, none, none, some "Zz",
            none, none, none, none⟩]⟩)]
        [] []).matcherLog.count "Zz" ≤ 1) := by
  decide

/-- C1 witness: a resolvable string (`"Ann Bee"`, exact match, mapped
external id) is matched at most once even across two sections. -/
theorem c1_amended_witness :
    (insert_courses_and_sections ratioZero
        [("K", ⟨none, none, none, none, none, none, none, none,
          [⟨some "001", none, none, none, none, none, none, some "Ann Bee",
            none, none, none, none⟩,
           ⟨some "002", none, none, none, none, none, none, some "Ann Bee",
            none, none, none, none⟩]⟩)]
        [⟨"Ann", "Bee", some "R9"⟩] [("R9", 5)]).matcherLog.count "Ann Bee" ≤ 1 :=
  (c1_amended ratioZero
    [("K", ⟨none, none, none, none, none, none, none, none,
      [⟨some "001", none, none, none, none, none, none, some "Ann Bee",
        none, none, none, none⟩,
       ⟨some "002", none, none, none, none, none, none, some "Ann Bee",
        none, none, none, none⟩]⟩)]
    [⟨"Ann", "Bee", some "R9"⟩] [("R9", 5)]).2 "Ann Bee" (by decide)
